import Mathlib

/-!
# Verification of the A* pathfinding core (`python4.py`)

This file gives a shallow embedding of the grid search engine of the
repository: the coordinate/grid model, the Manhattan heuristic, the search
`Node` with its predecessor link, a faithful model of Python's `heapq`
binary-heap operations (`heappush` / `heappop` with `_siftdown` / `_siftup`,
comparing nodes by their `f` field only, as `Node.__lt__` does), the `astar`
main loop, and `reconstruct_path`.  The while-loop is embedded with an
explicit fuel parameter; a fuel bound sufficient for termination is proved
below, so the fuelled function agrees with the unbounded loop of the source.
-/

namespace PyAstar

/-- A grid coordinate: a pair of (unbounded) integers, as in Python. -/
abbrev Coord := Int × Int

/-- `GRID_SIZE = 30` in the source.  The development is parameterised by the
grid dimension `n`; this constant records the source's value. -/
def GRID_SIZE : Nat := 30

/-- `DIRECTIONS = [(-1, 0), (1, 0), (0, -1), (0, 1)]` (up, down, left, right). -/
def DIRECTIONS : List (Int × Int) := [(-1, 0), (1, 0), (0, -1), (0, 1)]

/-- The grid model: the dimension together with the set of blocked cells
(the global `GRID_SIZE` and `obstacles` of the source). -/
structure Grid where
  size : Nat
  obstacles : Finset Coord

/-- `heuristic(a, b)`: Manhattan distance `abs(a[0]-b[0]) + abs(a[1]-b[1])`,
written with `Int.natAbs` so that it is executable; it equals
`|a.1 - b.1| + |a.2 - b.2|` (proved below). -/
def heuristic (a b : Coord) : Int :=
  ((a.1 - b.1).natAbs : Int) + ((a.2 - b.2).natAbs : Int)

/-- The A* search node: position `(x, y)`, accumulated cost `g`, heuristic
estimate `h`, and the predecessor link `parent` (`None` for the start node).
Nodes are immutable; `f` is the sum `g + h` fixed at construction. -/
inductive Node where
  | mk (x y g h : Int) (parent : Option Node)

def Node.x : Node → Int | .mk x _ _ _ _ => x
def Node.y : Node → Int | .mk _ y _ _ _ => y
def Node.g : Node → Int | .mk _ _ g _ _ => g
def Node.h : Node → Int | .mk _ _ _ h _ => h
def Node.parent : Node → Option Node | .mk _ _ _ _ p => p

/-- `f = g + h`: the total priority of a node. -/
def Node.f (v : Node) : Int := v.g + v.h

/-- The coordinate `(node.x, node.y)` of a node. -/
def Node.coord (v : Node) : Coord := (v.x, v.y)

instance : Inhabited Node := ⟨.mk 0 0 0 0 none⟩

/-- `Node.__lt__`: comparison solely by the `f` field. -/
def Node.lt (a b : Node) : Prop := a.f < b.f

instance : Decidable (Node.lt a b) := inferInstanceAs (Decidable (a.f < b.f))

/-! ## Python's `heapq` on `List Node`

A faithful translation of CPython's `heapq.heappush` / `heapq.heappop`
(including the `_siftup` strategy of moving the smaller child up to the
bottom and then sifting down), with element comparison `Node.lt`. -/

/-- `heapq._siftdown(heap, startpos, pos)` with `newitem` already read out of
position `pos`: bubble `newitem` up towards `startpos`, moving larger parents
down.  The first argument is structural fuel; since the position strictly
decreases on every turn of the loop, fuel `pos` always suffices, and on
exhaustion (`pos = 0 ≤ startpos`) the 0-case coincides with the loop's
natural exit. -/
def siftdownAux : Nat → List Node → Nat → Nat → Node → List Node
  | 0, a, _, pos, newitem => a.set pos newitem
  | fuel + 1, a, startpos, pos, newitem =>
    if startpos < pos then
      let parentpos := (pos - 1) / 2
      let parent := a.getD parentpos default
      if Node.lt newitem parent then
        siftdownAux fuel (a.set pos parent) startpos parentpos newitem
      else
        a.set pos newitem
    else
      a.set pos newitem

/-- `heapq._siftdown(heap, startpos, pos)`. -/
def siftdown (a : List Node) (startpos pos : Nat) : List Node :=
  siftdownAux pos a startpos pos (a.getD pos default)

/-- The loop of `heapq._siftup`: move the smaller child up into the hole and
descend, until the hole reaches a leaf; then place `newitem` there and call
`_siftdown`.  Fuel `endpos - pos` always suffices since the position strictly
increases and stays below `endpos`; on exhaustion the 0-case coincides with
the loop's natural exit (`2*pos + 1 ≥ endpos`). -/
def siftupAux : Nat → List Node → Nat → Nat → Nat → Node → List Node
  | 0, a, _, startpos, pos, newitem =>
    siftdownAux pos (a.set pos newitem) startpos pos newitem
  | fuel + 1, a, endpos, startpos, pos, newitem =>
    let childpos := 2 * pos + 1
    if childpos < endpos then
      let rightpos := childpos + 1
      let childpos' :=
        if rightpos < endpos ∧
            ¬ Node.lt (a.getD childpos default) (a.getD rightpos default)
        then rightpos else childpos
      siftupAux fuel (a.set pos (a.getD childpos' default)) endpos startpos childpos' newitem
    else
      siftdownAux pos (a.set pos newitem) startpos pos newitem

/-- `heapq._siftup(heap, pos)`. -/
def siftup (a : List Node) (pos : Nat) : List Node :=
  siftupAux (a.length - pos) a a.length pos pos (a.getD pos default)

/-- `heapq.heappush(heap, item)`: append, then sift down from the root to the
last position. -/
def heappush (heap : List Node) (item : Node) : List Node :=
  let a := heap ++ [item]
  siftdown a 0 (a.length - 1)

/-- `heapq.heappop(heap)`: pop the last element; if the heap is still
non-empty, take the root as the return value, move the last element to the
root and sift up.  Returns `none` on the empty heap (the source only pops
under the `while open_set:` guard). -/
def heappop (heap : List Node) : Option (Node × List Node) :=
  match heap.getLast? with
  | none => none
  | some lastelt =>
    let rest := heap.dropLast
    if rest.length = 0 then
      some (lastelt, rest)
    else
      some (rest.getD 0 default, siftup (rest.set 0 lastelt) 0)

/-! ## The search engine -/

/-- `get_neighbors(node)`: the in-bounds, unblocked orthogonal neighbours of
`node`'s position, in `DIRECTIONS` order. -/
def get_neighbors (n : Nat) (obstacles : Finset Coord) (node : Node) : List Coord :=
  (DIRECTIONS.map (fun d => (node.x + d.1, node.y + d.2))).filter
    (fun q => 0 ≤ q.1 ∧ q.1 < (n : Int) ∧ 0 ≤ q.2 ∧ q.2 < (n : Int) ∧ q ∉ obstacles)

/-- `reconstruct_path(came_from, current)`: walk the `parent` links collecting
coordinates (goal first), then reverse.  The `came_from` argument is accepted
but never read, exactly as in the source. -/
def Node.chain : Node → List Coord
  | .mk x y _ _ none => [(x, y)]
  | .mk x y _ _ (some p) => (x, y) :: p.chain

def reconstruct_path (_came_from : Coord → Option Node) (current : Node) : List Coord :=
  current.chain.reverse

/-- The mutable state of one `astar` call: the frontier `open_set`, the
`closed_set`, and the `came_from` map. -/
structure SearchState where
  open_set : List Node
  closed_set : Finset Coord
  came_from : Coord → Option Node

/-- The body of the `for neighbor in get_neighbors(current)` loop: skip
neighbours already in the (updated) closed set, push a fresh node for each of
the others and record it in `came_from`. -/
def pushNeighbors (endc : Coord) (current : Node) (closed' : Finset Coord)
    (nbrs : List Coord) (heap : List Node) (came : Coord → Option Node) :
    List Node × (Coord → Option Node) :=
  nbrs.foldl
    (fun acc q =>
      if q ∈ closed' then acc
      else
        (heappush acc.1 (Node.mk q.1 q.2 (current.g + 1) (heuristic q endc) (some current)),
         fun c => if c = q then some current else acc.2 c))
    (heap, came)

/-- The result of one iteration of the `while open_set:` loop. -/
inductive StepRes where
  | exhausted
  | found (p : List Coord)
  | next (st : SearchState)

/-- One iteration of the main loop of `astar`: pop the minimum-`f` node; if
its coordinate is the goal, reconstruct and return; otherwise add it to the
closed set and expand its neighbours. -/
def astarStep (n : Nat) (obstacles : Finset Coord) (endc : Coord)
    (st : SearchState) : StepRes :=
  match heappop st.open_set with
  | none => .exhausted
  | some (current, rest) =>
    if (current.x, current.y) = endc then
      .found (reconstruct_path st.came_from current)
    else
      let closed' := insert (current.x, current.y) st.closed_set
      let hc := pushNeighbors endc current closed'
        (get_neighbors n obstacles current) rest st.came_from
      .next ⟨hc.1, closed', hc.2⟩

/-- The `while open_set:` loop, with fuel.  Returns `none` when the fuel runs
out (shown below never to happen for the fuel used by `astar`), otherwise the
result of the call together with the number of loop iterations executed. -/
def astarLoop (n : Nat) (obstacles : Finset Coord) (endc : Coord) :
    Nat → SearchState → Option (Option (List Coord) × Nat)
  | 0, _ => none
  | fuel + 1, st =>
    match astarStep n obstacles endc st with
    | .exhausted => some (none, 0)
    | .found p => some (some p, 1)
    | .next st' => (astarLoop n obstacles endc fuel st').map (fun r => (r.1, r.2 + 1))

/-- The initial state of `astar(start, end)`: the frontier holds the single
start node `Node(*start, g=0, h=heuristic(start, end))`, the closed set and
`came_from` are empty. -/
def initState (s e : Coord) : SearchState :=
  ⟨heappush [] (Node.mk s.1 s.2 0 (heuristic s e) none), ∅, fun _ => none⟩

/-- A fuel bound sufficient for the loop to run to completion on an `n × n`
grid (proved below). -/
def astarFuel (n : Nat) : Nat := 5 ^ (n * n) + 1

/-- The full run of `astar(start, end)` on an `n × n` grid with the given
obstacle set: the result (`some path` / `none`) and the iteration count. -/
def searchRun (n : Nat) (obstacles : Finset Coord) (s e : Coord) :
    Option (Option (List Coord) × Nat) :=
  astarLoop n obstacles e (astarFuel n) (initState s e)

/-- `astar(start, end)` itself: `some path`, or `none` for "No path found". -/
def astar (n : Nat) (obstacles : Finset Coord) (s e : Coord) : Option (List Coord) :=
  match searchRun n obstacles s e with
  | some (r, _) => r
  | none => none

/-- The engine's external entry point `find_path(grid, start, end)`. -/
def find_path (g : Grid) (s e : Coord) : Option (List Coord) :=
  astar g.size g.obstacles s e

/-- The number of iterations of the main loop performed by
`find_path(grid, start, end)`. -/
def searchIterations (g : Grid) (s e : Coord) : Option Nat :=
  (searchRun g.size g.obstacles s e).map (·.2)

/-! ## Specification vocabulary -/

/-- The parent index of heap slot `i` (`(i - 1) >> 1`). -/
def par (i : Nat) : Nat := (i - 1) / 2

/-- The `f`-key stored at slot `i` of the heap. -/
def kf (l : List Node) (i : Nat) : Int := (l.getD i default).f

/-- The binary min-heap ordering invariant maintained by `heapq`: every
non-root slot has a key no smaller than its parent's key. -/
def HeapOrd (l : List Node) : Prop :=
  ∀ i, 0 < i → i < l.length → kf l (par i) ≤ kf l i

/-- `c` lies on the `n × n` grid: `0 ≤ x,y < n`. -/
def inBoundsI (n : Nat) (c : Coord) : Prop :=
  0 ≤ c.1 ∧ c.1 < (n : Int) ∧ 0 ≤ c.2 ∧ c.2 < (n : Int)

instance (n : Nat) (c : Coord) : Decidable (inBoundsI n c) :=
  inferInstanceAs (Decidable (0 ≤ c.1 ∧ c.1 < (n : Int) ∧ 0 ≤ c.2 ∧ c.2 < (n : Int)))

/-- `a` and `b` differ by exactly one orthogonal unit step. -/
def adjacent (a b : Coord) : Prop :=
  ((a.1 - b.1).natAbs : Int) + ((a.2 - b.2).natAbs : Int) = 1

instance (a b : Coord) : Decidable (adjacent a b) :=
  inferInstanceAs
    (Decidable (((a.1 - b.1).natAbs : Int) + ((a.2 - b.2).natAbs : Int) = 1))

/-- `l` is a route from `a` to `b`: non-empty, starts at `a`, ends at `b`,
and every pair of consecutive coordinates is one orthogonal step apart. -/
def IsRoute (l : List Coord) (a b : Coord) : Prop :=
  l ≠ [] ∧ l.head? = some a ∧ l.getLast? = some b ∧ l.Chain' adjacent

/-- Well-formedness of a search node's predecessor chain, as established by
`astar` for every node it creates: the `h` field is the heuristic from the
node's position to the goal; the root of the chain is the start node
(`g = 0`, position `s`); every non-root node's position is in bounds,
unblocked, one step from its parent, and its `g` is the parent's `g + 1`. -/
def chainOK (n : Nat) (obst : Finset Coord) (s e : Coord) : Node → Prop
  | .mk x y g h p =>
    h = heuristic (x, y) e ∧
    match p with
    | none => (x, y) = s ∧ g = 0
    | some q =>
        inBoundsI n (x, y) ∧ (x, y) ∉ obst ∧ adjacent (x, y) q.coord ∧
        g = q.g + 1 ∧ chainOK n obst s e q

/-- The per-node heap invariant of the search: the chain is well formed, all
proper ancestors' coordinates are in the closed set, and the chain never
revisits a coordinate. -/
structure NodeInv (n : Nat) (obst : Finset Coord) (s e : Coord)
    (closed : Finset Coord) (v : Node) : Prop where
  ok : chainOK n obst s e v
  anc : ∀ c ∈ v.chain.tail, c ∈ closed
  nd : v.chain.Nodup

/-- The state invariant of the main loop. -/
structure StInv (n : Nat) (obst : Finset Coord) (s e : Coord)
    (st : SearchState) : Prop where
  mem : ∀ v ∈ st.open_set, NodeInv n obst s e st.closed_set v
  ord : HeapOrd st.open_set

/-- The termination measure: each heap node weighs `5 ^ (n² + 1 - |chain|)`;
every iteration removes one node and adds at most four with strictly longer
chains, so the measure strictly decreases. -/
def phi (n : Nat) (st : SearchState) : Nat :=
  (st.open_set.map (fun v => 5 ^ (n * n + 1 - v.chain.length))).sum

/-- The finite set of in-bounds coordinates of an `n × n` grid. -/
def gridFinset (n : Nat) : Finset Coord :=
  Finset.Icc (0 : Int) ((n : Int) - 1) ×ˢ Finset.Icc (0 : Int) ((n : Int) - 1)

/-- The optimality invariant used for empty-obstacle searches: while the
goal has not been returned, the frontier holds a node of priority exactly
`D = heuristic start end` whose coordinate is not closed, is at least as
close to the goal as every closed coordinate, and is closest to the goal
among all such frontier nodes. -/
def OptInv (e : Coord) (D : Int) (st : SearchState) : Prop :=
  ∃ v ∈ st.open_set, v.f = D ∧ v.coord ∉ st.closed_set ∧
    (∀ c ∈ st.closed_set, heuristic v.coord e ≤ heuristic c e) ∧
    (∀ w ∈ st.open_set, w.f = D → w.coord ∉ st.closed_set →
      heuristic v.coord e ≤ heuristic w.coord e)

/-! ## Variant and stateful embeddings used by individual claims -/

/-- Iterate `astarStep` a given number of times (stopping at a terminal
step); used to name intermediate states of a concrete run. -/
def iterSt (n : Nat) (obst : Finset Coord) (endc : Coord) :
    Nat → SearchState → SearchState
  | 0, st => st
  | k + 1, st =>
    match astarStep n obst endc st with
    | .next st' => iterSt n obst endc k st'
    | _ => st

/-- The length of the frontier after one `astarStep`, when the step
continues (`0` for a terminal step); used to observe how many nodes an
iteration pushes. -/
def stepOpenLength (n : Nat) (obst : Finset Coord) (endc : Coord)
    (st : SearchState) : Nat :=
  match astarStep n obst endc st with
  | .next st' => st'.open_set.length
  | _ => 0

/-- The closed set after one continuing `astarStep` (`∅` for a terminal
step); used to observe how one iteration changes the closed set. -/
def stepClosedSet (n : Nat) (obst : Finset Coord) (endc : Coord)
    (st : SearchState) : Finset Coord :=
  match astarStep n obst endc st with
  | .next st' => st'.closed_set
  | _ => ∅

/-- C3's claimed behaviour, as stated: whenever the popped node's coordinate
is already in the closed set, the iteration pushes nothing and closes
nothing — the frontier after the step is exactly the popped frontier. -/
def SkipsClosedAtPop : Prop :=
  ∀ (n : Nat) (obst : Finset Coord) (endc : Coord) (st : SearchState)
    (cur : Node) (rest : List Node),
    heappop st.open_set = some (cur, rest) →
    (cur.x, cur.y) ∈ st.closed_set →
    stepOpenLength n obst endc st = rest.length

/-- C4's claimed iteration bound, as stated: every search finishes within
`grid-cell-count × 4` iterations of the main loop. -/
def IterBound : Prop :=
  ∀ (g : Grid) (s e : Coord) (k : Nat),
    searchIterations g s e = some k → k ≤ 4 * g.size * g.size

/-- `get_neighbors` with the grid model threaded through explicitly: the
source only reads the global grid state, so the state is returned
unchanged. -/
def get_neighborsSt (g : Grid) (node : Node) : List Coord × Grid :=
  (get_neighbors g.size g.obstacles node, g)

/-- One iteration of the main loop with the grid model threaded through. -/
def astarStepSt (g : Grid) (endc : Coord) (st : SearchState) : StepRes × Grid :=
  match heappop st.open_set with
  | none => (.exhausted, g)
  | some (current, rest) =>
    if (current.x, current.y) = endc then
      (.found (reconstruct_path st.came_from current), g)
    else
      let closed' := insert (current.x, current.y) st.closed_set
      let ng := get_neighborsSt g current
      let hc := pushNeighbors endc current closed' ng.1 rest st.came_from
      (.next ⟨hc.1, closed', hc.2⟩, ng.2)

/-- The main loop with the grid model threaded through. -/
def astarLoopSt (endc : Coord) :
    Nat → Grid → SearchState → Option (Option (List Coord) × Nat) × Grid
  | 0, g, _ => (none, g)
  | fuel + 1, g, st =>
    match astarStepSt g endc st with
    | (.exhausted, g') => (some (none, 0), g')
    | (.found p, g') => (some (some p, 1), g')
    | (.next st', g') =>
      let r := astarLoopSt endc fuel g' st'
      (r.1.map (fun x => (x.1, x.2 + 1)), r.2)

/-- `find_path` with the grid model threaded through: returns the result
together with the final grid state. -/
def find_pathSt (g : Grid) (s e : Coord) : Option (List Coord) × Grid :=
  let r := astarLoopSt e (astarFuel g.size) g (initState s e)
  (match r.1 with
   | some (x, _) => x
   | none => none, r.2)

/-- The frontier/closed-set state of the `came_from`-free engine variant. -/
structure SearchStateNC where
  open_set : List Node
  closed_set : Finset Coord

/-- Neighbour expansion of the variant engine that maintains no
predecessor map. -/
def pushNeighborsNC (endc : Coord) (current : Node) (closed' : Finset Coord)
    (nbrs : List Coord) (heap : List Node) : List Node :=
  nbrs.foldl
    (fun acc q =>
      if q ∈ closed' then acc
      else heappush acc (Node.mk q.1 q.2 (current.g + 1) (heuristic q endc) (some current)))
    heap

/-- The result of one iteration of the variant engine. -/
inductive StepResNC where
  | exhausted
  | found (p : List Coord)
  | next (st : SearchStateNC)

/-- One iteration of the variant engine: identical to `astarStep` except
that no `came_from` map is recorded and reconstruction receives only the
terminal node's own predecessor chain. -/
def astarStepNC (n : Nat) (obstacles : Finset Coord) (endc : Coord)
    (st : SearchStateNC) : StepResNC :=
  match heappop st.open_set with
  | none => .exhausted
  | some (current, rest) =>
    if (current.x, current.y) = endc then
      .found current.chain.reverse
    else
      let closed' := insert (current.x, current.y) st.closed_set
      .next ⟨pushNeighborsNC endc current closed'
        (get_neighbors n obstacles current) rest, closed'⟩

/-- The main loop of the variant engine. -/
def astarLoopNC (n : Nat) (obstacles : Finset Coord) (endc : Coord) :
    Nat → SearchStateNC → Option (Option (List Coord) × Nat)
  | 0, _ => none
  | fuel + 1, st =>
    match astarStepNC n obstacles endc st with
    | .exhausted => some (none, 0)
    | .found p => some (some p, 1)
    | .next st' => (astarLoopNC n obstacles endc fuel st').map (fun r => (r.1, r.2 + 1))

/-- `find_path` for the variant engine without a predecessor map. -/
def find_pathNC (g : Grid) (s e : Coord) : Option (List Coord) :=
  match astarLoopNC g.size g.obstacles e (astarFuel g.size)
      ⟨heappush [] (Node.mk s.1 s.2 0 (heuristic s e) none), ∅⟩ with
  | some (r, _) => r
  | none => none

/-! ## List index and permutation helpers -/

theorem getD_eq_getElem {α : Type _} [Inhabited α] (l : List α) (i : Nat)
    (h : i < l.length) : l.getD i default = l[i] := by
  simp [List.getD_eq_getElem?_getD, List.getElem?_eq_getElem h]

theorem getD_set_self {α : Type _} [Inhabited α] (l : List α) (i : Nat) (v : α)
    (h : i < l.length) : (l.set i v).getD i default = v := by
  rw [getD_eq_getElem _ _ (by simpa using h)]
  exact List.getElem_set_self _

theorem getD_set_ne {α : Type _} [Inhabited α] (l : List α) {i j : Nat} (hij : i ≠ j)
    (v : α) : (l.set i v).getD j default = l.getD j default := by
  simp [List.getD_eq_getElem?_getD, List.getElem?_set, hij]

theorem cons_eraseIdx_perm {α : Type _} [Inhabited α] (l : List α) (i : Nat)
    (h : i < l.length) : l.Perm (l.getD i default :: l.eraseIdx i) := by
  conv_lhs => rw [← List.take_append_drop i l]
  rw [List.drop_eq_getElem_cons h, List.eraseIdx_eq_take_drop_succ,
    getD_eq_getElem _ _ h]
  exact List.perm_middle

theorem set_perm {α : Type _} (l : List α) (i : Nat) (v : α) (h : i < l.length) :
    (l.set i v).Perm (v :: l.eraseIdx i) := by
  rw [List.set_eq_take_cons_drop v h, List.eraseIdx_eq_take_drop_succ]
  exact List.perm_middle

theorem set_eraseIdx_perm_same {α : Type _} [Inhabited α] (l : List α) (i : Nat)
    (v : α) (h : i < l.length) :
    ((l.set i v).eraseIdx i).Perm (l.eraseIdx i) := by
  have h1 := cons_eraseIdx_perm (l.set i v) i (by simpa using h)
  rw [getD_set_self l i v h] at h1
  exact (h1.symm.trans (set_perm l i v h)).cons_inv

theorem set_eraseIdx_perm_cross {α : Type _} [Inhabited α] (l : List α) {i j : Nat}
    (hij : i ≠ j) (hi : i < l.length) (hj : j < l.length) :
    ((l.set i (l.getD j default)).eraseIdx j).Perm (l.eraseIdx i) := by
  have h1 := cons_eraseIdx_perm (l.set i (l.getD j default)) j (by simpa using hj)
  rw [getD_set_ne l hij] at h1
  exact (h1.symm.trans (set_perm l i _ hi)).cons_inv

/-! ## Multiset behaviour of `heappush` and `heappop` -/

theorem siftdownAux_perm (fuel : Nat) :
    ∀ (a : List Node) (sp pos : Nat) (item : Node), pos ≤ fuel → pos < a.length →
      (siftdownAux fuel a sp pos item).Perm (item :: a.eraseIdx pos) := by
  induction fuel with
  | zero =>
    intro a sp pos item hf hp
    have hz : pos = 0 := by omega
    subst hz
    exact set_perm a 0 item hp
  | succ fuel ih =>
    intro a sp pos item hf hp
    show (siftdownAux (fuel + 1) a sp pos item).Perm _
    rw [siftdownAux]
    dsimp only
    split_ifs with h1 h2
    · have hpp : (pos - 1) / 2 < pos := by omega
      have hne : pos ≠ (pos - 1) / 2 := by omega
      have hlt : (pos - 1) / 2 < (a.set pos (a.getD ((pos - 1) / 2) default)).length := by
        simpa using Nat.lt_trans hpp hp
      refine (ih _ sp _ item (by omega) hlt).trans ?_
      exact List.Perm.cons item (set_eraseIdx_perm_cross a hne hp (Nat.lt_trans hpp hp))
    · exact set_perm a pos item hp
    · exact set_perm a pos item hp

theorem siftupAux_perm (fuel : Nat) :
    ∀ (a : List Node) (sp pos : Nat) (item : Node), pos < a.length →
      (siftupAux fuel a a.length sp pos item).Perm (item :: a.eraseIdx pos) := by
  induction fuel with
  | zero =>
    intro a sp pos item hp
    show (siftdownAux pos ((a.set pos item)) sp pos item).Perm _
    refine (siftdownAux_perm pos _ sp pos item le_rfl (by simpa using hp)).trans ?_
    exact List.Perm.cons item (set_eraseIdx_perm_same a pos item hp)
  | succ fuel ih =>
    intro a sp pos item hp
    show (siftupAux (fuel + 1) a a.length sp pos item).Perm _
    rw [siftupAux]
    dsimp only
    by_cases h1 : 2 * pos + 1 < a.length
    · rw [if_pos h1]
      set c : Nat := if 2 * pos + 1 + 1 < a.length ∧
          ¬ Node.lt (a.getD (2 * pos + 1) default) (a.getD (2 * pos + 1 + 1) default)
        then 2 * pos + 1 + 1 else 2 * pos + 1 with hcdef
      have hcl : c < a.length := by
        rw [hcdef]; split_ifs with h2
        · exact h2.1
        · exact h1
      have hcp : pos ≠ c := by rw [hcdef]; split_ifs <;> omega
      have hlen : (a.set pos (a.getD c default)).length = a.length := by simp
      have hrec := ih (a.set pos (a.getD c default)) sp c item (by simpa using hcl)
      rw [hlen] at hrec
      refine hrec.trans ?_
      exact List.Perm.cons item (set_eraseIdx_perm_cross a hcp hp hcl)
    · rw [if_neg h1]
      refine (siftdownAux_perm pos _ sp pos item le_rfl (by simpa using hp)).trans ?_
      exact List.Perm.cons item (set_eraseIdx_perm_same a pos item hp)

theorem heappush_perm (l : List Node) (x : Node) : (heappush l x).Perm (x :: l) := by
  unfold heappush siftdown
  dsimp only
  have hlen : (l ++ [x]).length - 1 = l.length := by simp
  rw [hlen]
  have hgd : (l ++ [x]).getD l.length default = x := by
    rw [getD_eq_getElem _ _ (by simp)]
    rw [List.getElem_append_right le_rfl]
    simp
  rw [hgd]
  refine (siftdownAux_perm l.length _ 0 l.length x le_rfl (by simp)).trans ?_
  have he : (l ++ [x]).eraseIdx l.length = l := by
    rw [List.eraseIdx_append_of_length_le le_rfl]
    simp
  rw [he]

theorem heappop_eq_of_getLast (l : List Node) (lastelt : Node)
    (hl : l.getLast? = some lastelt) :
    heappop l =
      if l.dropLast.length = 0 then some (lastelt, l.dropLast)
      else some (l.dropLast.getD 0 default, siftup (l.dropLast.set 0 lastelt) 0) := by
  unfold heappop
  rw [hl]

theorem heappop_none_iff (l : List Node) : heappop l = none ↔ l = [] := by
  cases hl : l.getLast? with
  | none =>
    have : l = [] := by
      cases l with
      | nil => rfl
      | cons a t => simp [List.getLast?_concat] at hl
    subst this
    simp [heappop]
  | some lastelt =>
    rw [heappop_eq_of_getLast l lastelt hl]
    constructor
    · intro h; split at h <;> simp_all
    · intro h; subst h; simp at hl

theorem heappop_perm {l : List Node} {m : Node} {rest : List Node}
    (h : heappop l = some (m, rest)) : l.Perm (m :: rest) := by
  have hlne : l ≠ [] := by
    intro hx; subst hx; simp [heappop] at h
  have hl : l.getLast? = some (l.getLast hlne) := List.getLast?_eq_getLast l hlne
  rw [heappop_eq_of_getLast l _ hl] at h
  have hdecomp : l.dropLast ++ [l.getLast hlne] = l := List.dropLast_append_getLast hlne
  by_cases hr : l.dropLast.length = 0
  · rw [if_pos hr] at h
    have hdl : l.dropLast = [] := List.length_eq_zero.mp hr
    have h1 : m = l.getLast hlne := by
      have := Option.some_inj.mp h
      exact (congrArg Prod.fst this).symm
    have h2 : rest = l.dropLast := by
      have := Option.some_inj.mp h
      exact (congrArg Prod.snd this).symm
    have : l = [m] := by
      rw [← hdecomp, hdl, h1]; rfl
    rw [this, h2, hdl]
  · rw [if_neg hr] at h
    have hdlpos : 0 < l.dropLast.length := Nat.pos_of_ne_zero hr
    have h1 : m = l.dropLast.getD 0 default := by
      have := Option.some_inj.mp h
      exact (congrArg Prod.fst this).symm
    have h2 : rest = siftup (l.dropLast.set 0 (l.getLast hlne)) 0 := by
      have := Option.some_inj.mp h
      exact (congrArg Prod.snd this).symm
    set A := l.dropLast.set 0 (l.getLast hlne) with hA
    have hAlen : A.length = l.dropLast.length := by simp [hA]
    have hApos : 0 < A.length := by omega
    have hrest : rest.Perm (l.getLast hlne :: A.eraseIdx 0) := by
      rw [h2]
      unfold siftup
      rw [getD_set_self _ _ _ hdlpos]
      exact siftupAux_perm (A.length - 0) A 0 0 _ hApos
    have hup : (A.eraseIdx 0).Perm (l.dropLast.eraseIdx 0) :=
      set_eraseIdx_perm_same _ 0 _ hdlpos
    have hl1 : l.Perm (l.getLast hlne :: l.dropLast) := by
      conv_lhs => rw [← hdecomp]
      exact List.perm_append_singleton _ _
    have hl2 : l.dropLast.Perm (m :: l.dropLast.eraseIdx 0) := by
      rw [h1]; exact cons_eraseIdx_perm _ 0 hdlpos
    refine (hl1.trans (List.Perm.cons _ hl2)).trans ?_
    refine (List.Perm.swap _ _ _).trans ?_
    exact List.Perm.cons m ((hrest.trans (List.Perm.cons _ hup)).symm)

/-! ## The binary-heap ordering invariant -/

theorem par_lt {i : Nat} (h : 0 < i) : par i < i := by unfold par; omega

theorem lt_of_par_eq {i p : Nat} (h : par i = p) (h0 : 0 < p) : p < i := by
  unfold par at h; omega

theorem par_eq_cases {i p : Nat} (h0 : 0 < i) (h : par i = p) :
    i = 2 * p + 1 ∨ i = 2 * p + 2 := by
  unfold par at h; omega

theorem par_left (p : Nat) : par (2 * p + 1) = p := by unfold par; omega

theorem par_right (p : Nat) : par (2 * p + 2) = p := by unfold par; omega

theorem kf_set_self {a : List Node} {i : Nat} (h : i < a.length) (v : Node) :
    kf (a.set i v) i = v.f := by
  unfold kf; rw [getD_set_self _ _ _ h]

theorem kf_set_ne {a : List Node} {i j : Nat} (h : i ≠ j) (v : Node) :
    kf (a.set i v) j = kf a j := by
  unfold kf; rw [getD_set_ne _ h]

theorem kf_append_left {l : List Node} {x : Node} {i : Nat} (h : i < l.length) :
    kf (l ++ [x]) i = kf l i := by
  unfold kf
  rw [getD_eq_getElem _ _ (by simp; omega), getD_eq_getElem _ _ h,
    List.getElem_append_left h]

theorem kf_dropLast {l : List Node} {i : Nat} (h : i < l.dropLast.length) :
    kf l.dropLast i = kf l i := by
  unfold kf
  have h2 : i < l.length := by
    have := List.length_dropLast l; omega
  rw [getD_eq_getElem _ _ h, getD_eq_getElem _ _ h2, List.getElem_dropLast]

theorem heapOrd_set_final (a : List Node) (pos : Nat) (item : Node)
    (hp : pos < a.length)
    (hA : ∀ j, 0 < j → j < a.length → j ≠ pos → par j ≠ pos → kf a (par j) ≤ kf a j)
    (hC : ∀ j, j < a.length → par j = pos → item.f ≤ kf a j)
    (hPar : 0 < pos → kf a (par pos) ≤ item.f) :
    HeapOrd (a.set pos item) := by
  intro j hj0 hjl
  rw [List.length_set] at hjl
  rcases eq_or_ne j pos with hj | hj
  · subst hj
    have hppl : par j < j := par_lt hj0
    rw [kf_set_self hp, kf_set_ne (by omega) _]
    exact hPar hj0
  · rcases eq_or_ne (par j) pos with hpj | hpj
    · rw [hpj, kf_set_self hp, kf_set_ne (fun hx => hj hx.symm) _]
      exact hC j hjl hpj
    · rw [kf_set_ne (fun hx => hpj hx.symm) _, kf_set_ne (fun hx => hj hx.symm) _]
      exact hA j hj0 hjl hj hpj

theorem siftdownAux_heapOrd (fuel : Nat) :
    ∀ (a : List Node) (pos : Nat) (item : Node),
      pos ≤ fuel → pos < a.length →
      (∀ j, 0 < j → j < a.length → j ≠ pos → par j ≠ pos → kf a (par j) ≤ kf a j) →
      (∀ j, j < a.length → par j = pos → 0 < pos → kf a (par pos) ≤ kf a j) →
      (∀ j, j < a.length → par j = pos → item.f ≤ kf a j) →
      HeapOrd (siftdownAux fuel a 0 pos item) := by
  induction fuel with
  | zero =>
    intro a pos item hf hp hA _hB hC
    have hz : pos = 0 := by omega
    subst hz
    show HeapOrd (a.set 0 item)
    exact heapOrd_set_final a 0 item hp hA hC (by omega)
  | succ fuel ih =>
    intro a pos item hf hp hA hB hC
    show HeapOrd (siftdownAux (fuel + 1) a 0 pos item)
    rw [siftdownAux]
    dsimp only
    by_cases h0 : 0 < pos
    · rw [if_pos h0]
      show HeapOrd (if Node.lt item (a.getD (par pos) default) then
          siftdownAux fuel (a.set pos (a.getD (par pos) default)) 0 (par pos) item
        else a.set pos item)
      have hppl : par pos < pos := par_lt h0
      have hppa : par pos < a.length := Nat.lt_trans hppl hp
      by_cases hlt : Node.lt item (a.getD (par pos) default)
      · rw [if_pos hlt]
        have hilt : item.f < kf a (par pos) := hlt
        refine ih (a.set pos (a.getD (par pos) default)) (par pos) item
          (by omega) (by simpa using hppa) ?_ ?_ ?_
        · -- links not touching the new hole `par pos`
          intro j hj0 hjl hjne hpjne
          rw [List.length_set] at hjl
          rcases eq_or_ne j pos with hj | hj
          · exact absurd (hj ▸ rfl) hpjne
          · rcases eq_or_ne (par j) pos with hpj | hpj
            · -- j is a child of the old hole: grandparent bound hB
              have hjp : pos < j := lt_of_par_eq hpj h0
              rw [hpj, kf_set_self hp, kf_set_ne (by omega) _]
              exact hB j hjl hpj h0
            · rw [kf_set_ne (fun hx => hpj hx.symm) _, kf_set_ne (fun hx => hj hx.symm) _]
              exact hA j hj0 hjl hj hpj
        · -- grandparent bound for the new hole
          intro j hjl hpj hpp0
          rw [List.length_set] at hjl
          have hgpp : par (par pos) < par pos := par_lt hpp0
          have hgne : par (par pos) ≠ pos := Nat.ne_of_lt (Nat.lt_trans hgpp hppl)
          rw [kf_set_ne (fun hx => hgne hx.symm) _]
          have hstep : kf a (par (par pos)) ≤ kf a (par pos) :=
            hA (par pos) hpp0 hppa (Nat.ne_of_lt hppl) hgne
          rcases eq_or_ne j pos with hj | hj
          · rw [hj, kf_set_self hp]
            exact hstep
          · have hj0 : 0 < j := by
              rcases Nat.eq_zero_or_pos j with hz | hz
              · exfalso; subst hz
                rw [show par 0 = 0 from rfl] at hpj
                omega
              · exact hz
            have hjpp : par pos < j := lt_of_par_eq hpj hpp0
            rw [kf_set_ne (fun hx => hj hx.symm) _]
            refine le_trans hstep ?_
            have h5 := hA j hj0 hjl hj (by rw [hpj]; exact Nat.ne_of_lt hppl)
            rw [hpj] at h5
            exact h5
        · -- `item` stays below both children of the new hole
          intro j hjl hpj
          rw [List.length_set] at hjl
          rcases eq_or_ne j pos with hj | hj
          · rw [hj, kf_set_self hp]
            exact le_of_lt hilt
          · rw [kf_set_ne (fun hx => hj hx.symm) _]
            rcases eq_or_ne j (par pos) with hjq | hjq
            · -- only possible when `par pos = 0 = j`
              rw [hjq]
              exact le_of_lt hilt
            · have hj0 : 0 < j := by
                rcases Nat.eq_zero_or_pos j with hz | hz
                · exfalso; subst hz
                  rw [show par 0 = 0 from rfl] at hpj
                  exact hjq hpj
                · exact hz
              refine le_trans (le_of_lt hilt) ?_
              have h5 := hA j hj0 hjl hj (by rw [hpj]; exact Nat.ne_of_lt hppl)
              rw [hpj] at h5
              exact h5
      · -- the parent is not larger: place `item` at `pos`
        rw [if_neg hlt]
        exact heapOrd_set_final a pos item hp hA hC
          (fun _ => not_lt.mp hlt)
    · -- pos = 0: place `item` at the root
      rw [if_neg h0]
      have hz : pos = 0 := by omega
      subst hz
      exact heapOrd_set_final a 0 item hp hA hC (by omega)

theorem siftupAux_heapOrd (fuel : Nat) :
    ∀ (a : List Node) (pos : Nat) (item : Node),
      a.length - pos ≤ fuel → pos < a.length →
      (∀ j, 0 < j → j < a.length → j ≠ pos → par j ≠ pos → kf a (par j) ≤ kf a j) →
      (∀ j, j < a.length → par j = pos → 0 < pos → kf a (par pos) ≤ kf a j) →
      HeapOrd (siftupAux fuel a a.length 0 pos item) := by
  induction fuel with
  | zero =>
    intro a pos item hf hp _ _
    omega
  | succ fuel ih =>
    intro a pos item hf hp hD1 hD2
    show HeapOrd (siftupAux (fuel + 1) a a.length 0 pos item)
    rw [siftupAux]
    dsimp only
    by_cases h1 : 2 * pos + 1 < a.length
    · rw [if_pos h1]
      set c : Nat := if 2 * pos + 1 + 1 < a.length ∧
          ¬ Node.lt (a.getD (2 * pos + 1) default) (a.getD (2 * pos + 1 + 1) default)
        then 2 * pos + 1 + 1 else 2 * pos + 1 with hcdef
      have hcl : c < a.length := by
        rw [hcdef]; split_ifs with h2
        · exact h2.1
        · exact h1
      have hcgt : pos < c := by rw [hcdef]; split_ifs <;> omega
      have hparc : par c = pos := by
        rw [hcdef]; split_ifs
        · exact par_right pos
        · exact par_left pos
      have hsib : ∀ j, 0 < j → j < a.length → par j = pos → kf a c ≤ kf a j := by
        intro j hj0 hjl hpj
        rcases par_eq_cases (i := j) (p := pos) hj0 hpj with hj | hj
        · -- j is the left child
          rw [hcdef]; split_ifs with h2
          · -- right chosen: its key is ≤ the left child's
            have := h2.2
            unfold Node.lt at this
            subst hj
            exact not_lt.mp this
          · subst hj; exact le_refl _
        · -- j is the right child
          rw [hcdef]; split_ifs with h2
          · subst hj; exact le_refl _
          · -- left chosen although the right child exists: left is smaller
            subst hj
            have h3 : 2 * pos + 1 + 1 < a.length := by omega
            have h4 : Node.lt (a.getD (2 * pos + 1) default)
                (a.getD (2 * pos + 1 + 1) default) := by
              by_contra h5
              exact h2 ⟨h3, h5⟩
            unfold Node.lt at h4
            exact le_of_lt h4
      set a' := a.set pos (a.getD c default) with ha'
      have hlen' : a'.length = a.length := by simp [ha']
      have hkc : kf a' pos = kf a c := by
        rw [ha']; exact kf_set_self hp _
      have hrec := ih a' c item (by omega) (by omega) ?_ ?_
      · rw [hlen'] at hrec; exact hrec
      · -- hD1 for the new hole `c`
        intro j hj0 hjl hjne hpjne
        rw [hlen'] at hjl
        rcases eq_or_ne j pos with hj | hj
        · -- the old hole now holds the chosen child's value
          subst hj
          have hj0' : 0 < j := hj0
          have hpne : par j ≠ j := by have := par_lt hj0; omega
          rw [kf_set_self hp, kf_set_ne (fun hx => hpne hx.symm) _]
          exact hD2 c hcl hparc hj0
        · rcases eq_or_ne (par j) pos with hpj | hpj
          · -- j is the sibling of `c` (or `c` itself, excluded)
            rw [hpj, kf_set_self hp, kf_set_ne (fun hx => hj hx.symm) _]
            exact hsib j hj0 hjl hpj
          · rw [kf_set_ne (fun hx => hpj hx.symm) _, kf_set_ne (fun hx => hj hx.symm) _]
            exact hD1 j hj0 hjl hj hpj
      · -- hD2 for the new hole `c`
        intro j hjl hpj hc0
        rw [hlen'] at hjl
        have hjgt : c < j := lt_of_par_eq hpj hc0
        have hjne : j ≠ pos := by omega
        rw [hparc, kf_set_self hp, kf_set_ne (fun hx => hjne hx.symm) _]
        have hj0 : 0 < j := by omega
        have := hD1 j hj0 hjl hjne (by rw [hpj]; omega)
        rw [hpj] at this
        exact this
    · -- no children: place `item` here and sift down
      rw [if_neg h1]
      refine siftdownAux_heapOrd pos _ pos item le_rfl (by simpa using hp) ?_ ?_ ?_
      · intro j hj0 hjl hjne hpjne
        rw [List.length_set] at hjl
        rw [kf_set_ne (fun hx => hpjne hx.symm) _, kf_set_ne (fun hx => hjne hx.symm) _]
        exact hD1 j hj0 hjl hjne hpjne
      · intro j hjl hpj hp0
        rw [List.length_set] at hjl
        have hj0 : 0 < j := by
          rcases Nat.eq_zero_or_pos j with hz | hz
          · exfalso; subst hz; unfold par at hpj; omega
          · exact hz
        rcases par_eq_cases hj0 hpj with hj | hj <;> omega
      · intro j hjl hpj
        rw [List.length_set] at hjl
        rcases eq_or_ne j pos with hj | hj
        · subst hj
          rw [kf_set_self hp]
        · have hj0 : 0 < j := by
            rcases Nat.eq_zero_or_pos j with hz | hz
            · exfalso; subst hz; unfold par at hpj; omega
            · exact hz
          rcases par_eq_cases hj0 hpj with hj2 | hj2 <;> omega

theorem heappush_heapOrd (l : List Node) (x : Node) (h : HeapOrd l) :
    HeapOrd (heappush l x) := by
  unfold heappush siftdown
  dsimp only
  have hlen : (l ++ [x]).length - 1 = l.length := by simp
  rw [hlen]
  refine siftdownAux_heapOrd l.length _ l.length _ le_rfl (by simp) ?_ ?_ ?_
  · intro j hj0 hjl hjne hpjne
    have hjl' : j < l.length := by simp at hjl; omega
    have hpjl : par j < l.length := Nat.lt_of_le_of_lt (by unfold par; omega) hjl'
    rw [kf_append_left hjl', kf_append_left hpjl]
    exact h j hj0 hjl'
  · intro j hjl hpj hp0
    have hjp : l.length < j := lt_of_par_eq hpj hp0
    simp at hjl
    omega
  · intro j hjl hpj
    rcases eq_or_ne j l.length with hj | hj
    · subst hj
      exact le_of_eq rfl
    · have hj0 : 0 < j := by
        rcases Nat.eq_zero_or_pos j with hz | hz
        · exfalso; subst hz; unfold par at hpj; omega
        · exact hz
      rcases par_eq_cases hj0 hpj with hj2 | hj2 <;> (simp at hjl; omega)

theorem heappop_heapOrd {l : List Node} {m : Node} {rest : List Node}
    (h : HeapOrd l) (hp : heappop l = some (m, rest)) : HeapOrd rest := by
  have hlne : l ≠ [] := by
    intro hx; subst hx; simp [heappop] at hp
  have hl : l.getLast? = some (l.getLast hlne) := List.getLast?_eq_getLast l hlne
  rw [heappop_eq_of_getLast l _ hl] at hp
  by_cases hr : l.dropLast.length = 0
  · rw [if_pos hr] at hp
    have h2 : rest = l.dropLast := by
      have := Option.some_inj.mp hp
      exact (congrArg Prod.snd this).symm
    rw [h2]
    intro j hj0 hjl
    omega
  · rw [if_neg hr] at hp
    have hdlpos : 0 < l.dropLast.length := Nat.pos_of_ne_zero hr
    have h2 : rest = siftup (l.dropLast.set 0 (l.getLast hlne)) 0 := by
      have := Option.some_inj.mp hp
      exact (congrArg Prod.snd this).symm
    rw [h2]
    unfold siftup
    set A := l.dropLast.set 0 (l.getLast hlne) with hA
    have hAlen : A.length = l.dropLast.length := by simp [hA]
    refine siftupAux_heapOrd (A.length - 0) A 0 _ le_rfl (by omega) ?_ ?_
    · intro j hj0 hjl hjne hpjne
      have hjd : j < l.dropLast.length := by omega
      have hpd : par j < l.dropLast.length := Nat.lt_of_le_of_lt (by unfold par; omega) hjd
      have hjl2 : j < l.length := by have := List.length_dropLast l; omega
      rw [hA, kf_set_ne (fun hx => hjne hx.symm) _, kf_set_ne (fun hx => hpjne hx.symm) _,
        kf_dropLast hjd, kf_dropLast hpd]
      exact h j hj0 hjl2
    · intro j hjl hpj hp0
      omega

theorem heapOrd_root_le (l : List Node) (h : HeapOrd l) :
    ∀ i, i < l.length → kf l 0 ≤ kf l i := by
  intro i
  induction i using Nat.strong_induction_on with
  | _ i ih =>
    intro hil
    rcases Nat.eq_zero_or_pos i with hz | hz
    · subst hz; exact le_refl _
    · refine le_trans (ih (par i) (par_lt hz) (Nat.lt_trans (par_lt hz) hil)) ?_
      exact h i hz hil

theorem heappop_min {l : List Node} {m : Node} {rest : List Node}
    (ord : HeapOrd l) (hp : heappop l = some (m, rest)) :
    ∀ v ∈ l, m.f ≤ v.f := by
  have hlne : l ≠ [] := by
    intro hx; subst hx; simp [heappop] at hp
  have hl : l.getLast? = some (l.getLast hlne) := List.getLast?_eq_getLast l hlne
  rw [heappop_eq_of_getLast l _ hl] at hp
  have hm : m.f = kf l 0 := by
    by_cases hr : l.dropLast.length = 0
    · rw [if_pos hr] at hp
      have h1 : m = l.getLast hlne := by
        have := Option.some_inj.mp hp
        exact (congrArg Prod.fst this).symm
      have hlen1 : l.length = 1 := by
        have := List.length_dropLast l
        have hpos : 0 < l.length := List.length_pos.mpr hlne
        omega
      have : l.getLast hlne = l.getD 0 default := by
        rw [List.getLast_eq_getElem, getD_eq_getElem _ _ (by omega)]
        congr 1
        omega
      rw [h1, this]; rfl
    · rw [if_neg hr] at hp
      have h1 : m = l.dropLast.getD 0 default := by
        have := Option.some_inj.mp hp
        exact (congrArg Prod.fst this).symm
      have hdlpos : 0 < l.dropLast.length := Nat.pos_of_ne_zero hr
      have : kf l.dropLast 0 = kf l 0 := kf_dropLast hdlpos
      rw [h1]
      exact this
  intro v hv
  obtain ⟨i, hil, hiv⟩ := List.getElem_of_mem hv
  have : kf l i = v.f := by
    unfold kf; rw [getD_eq_getElem _ _ hil, hiv]
  rw [hm, ← this]
  exact heapOrd_root_le l ord i hil

/-! ## Membership through the heap operations -/

theorem mem_heappush {l : List Node} {x v : Node} :
    v ∈ heappush l x ↔ v = x ∨ v ∈ l := by
  rw [(heappush_perm l x).mem_iff]
  simp

theorem heappop_mem {l : List Node} {m : Node} {rest : List Node}
    (h : heappop l = some (m, rest)) : m ∈ l ∧ ∀ v ∈ rest, v ∈ l := by
  have hp := heappop_perm h
  constructor
  · exact hp.mem_iff.mpr (by simp)
  · intro v hv
    exact hp.mem_iff.mpr (by simp [hv])

/-! ## Characterisation of `get_neighbors` -/

theorem heuristic_adjacent {a b : Coord} (h : adjacent a b) : heuristic a b = 1 := h

theorem heuristic_triangle (a b c : Coord) :
    heuristic a c ≤ heuristic a b + heuristic b c := by
  unfold heuristic
  omega

theorem heuristic_nonneg (a b : Coord) : 0 ≤ heuristic a b := by
  unfold heuristic
  omega

theorem heuristic_self (a : Coord) : heuristic a a = 0 := by
  unfold heuristic
  omega

theorem heuristic_comm (a b : Coord) : heuristic a b = heuristic b a := by
  unfold heuristic
  omega

theorem mem_get_neighbors {n : Nat} {obst : Finset Coord} {v : Node} {q : Coord} :
    q ∈ get_neighbors n obst v ↔
      adjacent q v.coord ∧ inBoundsI n q ∧ q ∉ obst := by
  unfold get_neighbors
  rw [List.mem_filter]
  simp only [List.mem_map, DIRECTIONS, List.mem_cons, List.not_mem_nil, or_false,
    decide_eq_true_eq]
  constructor
  · rintro ⟨⟨d, hd, rfl⟩, h1, h2, h3, h4, h5⟩
    refine ⟨?_, ⟨h1, h2, h3, h4⟩, h5⟩
    unfold adjacent Node.coord
    rcases hd with rfl | rfl | rfl | rfl <;> (simp only [] ; omega)
  · rintro ⟨hadj, ⟨h1, h2, h3, h4⟩, h5⟩
    refine ⟨?_, h1, h2, h3, h4, h5⟩
    unfold adjacent Node.coord at hadj
    have hcases : (q.1 = v.x + -1 ∧ q.2 = v.y + 0) ∨ (q.1 = v.x + 1 ∧ q.2 = v.y + 0) ∨
        (q.1 = v.x + 0 ∧ q.2 = v.y + -1) ∨ (q.1 = v.x + 0 ∧ q.2 = v.y + 1) := by
      omega
    rcases hcases with ⟨ha, hb⟩ | ⟨ha, hb⟩ | ⟨ha, hb⟩ | ⟨ha, hb⟩
    · exact ⟨(-1, 0), by simp, Prod.ext (by omega) (by omega)⟩
    · exact ⟨(1, 0), by simp, Prod.ext (by omega) (by omega)⟩
    · exact ⟨(0, -1), by simp, Prod.ext (by omega) (by omega)⟩
    · exact ⟨(0, 1), by simp, Prod.ext (by omega) (by omega)⟩

theorem get_neighbors_length_le (n : Nat) (obst : Finset Coord) (v : Node) :
    (get_neighbors n obst v).length ≤ 4 := by
  unfold get_neighbors
  refine le_trans (List.length_filter_le _ _) ?_
  simp [DIRECTIONS]

/-! ## Predecessor-chain lemmas -/

theorem chain_ne_nil (v : Node) : v.chain ≠ [] := by
  cases v with
  | mk x y g h p => cases p <;> simp [Node.chain]

theorem chain_head (v : Node) : v.chain.head? = some v.coord := by
  cases v with
  | mk x y g h p => cases p <;> simp [Node.chain, Node.coord, Node.x, Node.y]

theorem chain_parent (x y g h : Int) (q : Node) :
    (Node.mk x y g h (some q)).chain = (x, y) :: q.chain := by
  simp [Node.chain]

theorem chain_root (x y g h : Int) :
    (Node.mk x y g h none).chain = [(x, y)] := by
  simp [Node.chain]

theorem chainOK_length {n : Nat} {obst : Finset Coord} {s e : Coord} :
    ∀ (v : Node), chainOK n obst s e v → (v.chain.length : Int) = v.g + 1
  | .mk x y g h none, _hok => by
    obtain ⟨_, _, hg⟩ := _hok
    simp [Node.chain, Node.g, hg]
  | .mk x y g h (some q), hok => by
    obtain ⟨_, _, _, _, hg, hq⟩ := hok
    have ih := chainOK_length q hq
    simp only [chain_parent, List.length_cons, Node.g]
    push_cast
    rw [hg]
    omega

theorem chainOK_g_nonneg {n : Nat} {obst : Finset Coord} {s e : Coord} {v : Node}
    (h : chainOK n obst s e v) : 0 ≤ v.g := by
  have := chainOK_length v h
  have hpos : 0 < v.chain.length := List.length_pos.mpr (chain_ne_nil v)
  omega

theorem chainOK_getLast {n : Nat} {obst : Finset Coord} {s e : Coord} :
    ∀ (v : Node), chainOK n obst s e v → v.chain.getLast? = some s
  | .mk x y g h none, hok => by
    obtain ⟨_, hs, _⟩ := hok
    simp [Node.chain, hs]
  | .mk x y g h (some q), hok => by
    obtain ⟨_, _, _, _, _, hq⟩ := hok
    have ih := chainOK_getLast q hq
    rw [chain_parent]
    rw [List.getLast?_cons, ih]
    simp

theorem chainOK_chain' {n : Nat} {obst : Finset Coord} {s e : Coord} :
    ∀ (v : Node), chainOK n obst s e v → v.chain.Chain' adjacent
  | .mk x y g h none, _hok => by simp [Node.chain]
  | .mk x y g h (some q), hok => by
    obtain ⟨_, _, _, hadj, _, hq⟩ := hok
    have ih := chainOK_chain' q hq
    rw [chain_parent]
    rw [List.chain'_cons']
    refine ⟨?_, ih⟩
    intro z hz
    rw [chain_head q] at hz
    cases hz
    exact hadj

theorem chainOK_mem {n : Nat} {obst : Finset Coord} {s e : Coord} :
    ∀ (v : Node), chainOK n obst s e v →
      ∀ c ∈ v.chain, c = s ∨ (inBoundsI n c ∧ c ∉ obst)
  | .mk x y g h none, hok => by
    obtain ⟨_, hs, _⟩ := hok
    intro c hc
    rw [chain_root] at hc
    simp at hc
    subst hc
    exact Or.inl hs
  | .mk x y g h (some q), hok => by
    obtain ⟨_, hb, hno, _, _, hq⟩ := hok
    intro c hc
    rw [chain_parent] at hc
    rcases List.mem_cons.mp hc with rfl | hc
    · exact Or.inr ⟨hb, hno⟩
    · exact chainOK_mem q hq c hc

theorem chainOK_g_ge {n : Nat} {obst : Finset Coord} {s e : Coord} :
    ∀ (v : Node), chainOK n obst s e v → heuristic s v.coord ≤ v.g
  | .mk x y g h none, hok => by
    obtain ⟨_, hs, hg⟩ := hok
    have : (Node.mk x y g h none).coord = s := hs
    rw [this, heuristic_self]
    rw [show (Node.mk x y g h none).g = g from rfl, hg]
  | .mk x y g h (some q), hok => by
    obtain ⟨_, _, _, hadj, hg, hq⟩ := hok
    have ih := chainOK_g_ge q hq
    have htri : heuristic s (Node.mk x y g h (some q)).coord ≤
        heuristic s q.coord + heuristic q.coord (Node.mk x y g h (some q)).coord :=
      heuristic_triangle _ _ _
    have hone : heuristic (Node.mk x y g h (some q)).coord q.coord = 1 :=
      heuristic_adjacent hadj
    have hcomm := heuristic_comm (Node.mk x y g h (some q)).coord q.coord
    have hgv : (Node.mk x y g h (some q)).g = q.g + 1 := hg
    omega

theorem chainOK_f {n : Nat} {obst : Finset Coord} {s e : Coord} {v : Node}
    (hok : chainOK n obst s e v) : v.f = v.g + heuristic v.coord e := by
  cases v with
  | mk x y g h p =>
    cases p with
    | none =>
      obtain ⟨hh, _⟩ := hok
      show g + h = g + heuristic (x, y) e
      rw [hh]
    | some q =>
      obtain ⟨hh, _⟩ := hok
      show g + h = g + heuristic (x, y) e
      rw [hh]

theorem chainOK_f_ge {n : Nat} {obst : Finset Coord} {s e : Coord} {v : Node}
    (hok : chainOK n obst s e v) : heuristic s e ≤ v.f := by
  rw [chainOK_f hok]
  have h1 := chainOK_g_ge v hok
  have h2 := heuristic_triangle s v.coord e
  omega

theorem chain_cons (v : Node) : v.chain = v.coord :: v.chain.tail := by
  cases v with
  | mk x y g h p => cases p <;> simp [Node.chain, Node.coord, Node.x, Node.y]

/-! ## Neighbour expansion -/

theorem pushNeighbors_nil (endc : Coord) (cur : Node) (closed' : Finset Coord)
    (heap : List Node) (came : Coord → Option Node) :
    pushNeighbors endc cur closed' [] heap came = (heap, came) := rfl

theorem pushNeighbors_cons (endc : Coord) (cur : Node) (closed' : Finset Coord)
    (q : Coord) (t : List Coord) (heap : List Node) (came : Coord → Option Node) :
    pushNeighbors endc cur closed' (q :: t) heap came =
      if q ∈ closed' then pushNeighbors endc cur closed' t heap came
      else pushNeighbors endc cur closed' t
        (heappush heap (Node.mk q.1 q.2 (cur.g + 1) (heuristic q endc) (some cur)))
        (fun c => if c = q then some cur else came c) := by
  unfold pushNeighbors
  rw [List.foldl_cons]
  split_ifs with h <;> simp [h]

theorem pushNeighbors_fst_mem (endc : Coord) (cur : Node) (closed' : Finset Coord) :
    ∀ (nbrs : List Coord) (heap : List Node) (came : Coord → Option Node) (v : Node),
      v ∈ (pushNeighbors endc cur closed' nbrs heap came).1 →
      v ∈ heap ∨ ∃ q ∈ nbrs, q ∉ closed' ∧
        v = Node.mk q.1 q.2 (cur.g + 1) (heuristic q endc) (some cur) := by
  intro nbrs
  induction nbrs with
  | nil =>
    intro heap came v hv
    rw [pushNeighbors_nil] at hv
    exact Or.inl hv
  | cons q t ih =>
    intro heap came v hv
    rw [pushNeighbors_cons] at hv
    split_ifs at hv with hq
    · rcases ih heap came v hv with h | ⟨q', hq', hn, he⟩
      · exact Or.inl h
      · exact Or.inr ⟨q', List.mem_cons_of_mem _ hq', hn, he⟩
    · rcases ih _ _ v hv with h | ⟨q', hq', hn, he⟩
      · rcases mem_heappush.mp h with h | h
        · exact Or.inr ⟨q, List.mem_cons_self _ _, hq, h⟩
        · exact Or.inl h
      · exact Or.inr ⟨q', List.mem_cons_of_mem _ hq', hn, he⟩

theorem pushNeighbors_fst_mem_of_heap (endc : Coord) (cur : Node) (closed' : Finset Coord) :
    ∀ (nbrs : List Coord) (heap : List Node) (came : Coord → Option Node) (v : Node),
      v ∈ heap → v ∈ (pushNeighbors endc cur closed' nbrs heap came).1 := by
  intro nbrs
  induction nbrs with
  | nil =>
    intro heap came v hv
    rw [pushNeighbors_nil]
    exact hv
  | cons q t ih =>
    intro heap came v hv
    rw [pushNeighbors_cons]
    split_ifs with hq
    · exact ih heap came v hv
    · exact ih _ _ v (mem_heappush.mpr (Or.inr hv))

theorem pushNeighbors_fst_mem_of_nbr (endc : Coord) (cur : Node) (closed' : Finset Coord) :
    ∀ (nbrs : List Coord) (heap : List Node) (came : Coord → Option Node) (q : Coord),
      q ∈ nbrs → q ∉ closed' →
      Node.mk q.1 q.2 (cur.g + 1) (heuristic q endc) (some cur) ∈
        (pushNeighbors endc cur closed' nbrs heap came).1 := by
  intro nbrs
  induction nbrs with
  | nil =>
    intro heap came q hq _
    simp at hq
  | cons q0 t ih =>
    intro heap came q hq hnc
    rw [pushNeighbors_cons]
    rcases List.mem_cons.mp hq with rfl | hq
    · rw [if_neg hnc]
      exact pushNeighbors_fst_mem_of_heap endc cur closed' t _ _ _
        (mem_heappush.mpr (Or.inl rfl))
    · split_ifs with hq0
      · exact ih heap came q hq hnc
      · exact ih _ _ q hq hnc

theorem pushNeighbors_heapOrd (endc : Coord) (cur : Node) (closed' : Finset Coord) :
    ∀ (nbrs : List Coord) (heap : List Node) (came : Coord → Option Node),
      HeapOrd heap → HeapOrd (pushNeighbors endc cur closed' nbrs heap came).1 := by
  intro nbrs
  induction nbrs with
  | nil =>
    intro heap came h
    rw [pushNeighbors_nil]
    exact h
  | cons q t ih =>
    intro heap came h
    rw [pushNeighbors_cons]
    split_ifs with hq
    · exact ih heap came h
    · exact ih _ _ (heappush_heapOrd _ _ h)

theorem pushNeighbors_fst_eq_nc (endc : Coord) (cur : Node) (closed' : Finset Coord) :
    ∀ (nbrs : List Coord) (heap : List Node) (came : Coord → Option Node),
      (pushNeighbors endc cur closed' nbrs heap came).1 =
        pushNeighborsNC endc cur closed' nbrs heap := by
  intro nbrs
  induction nbrs with
  | nil =>
    intro heap came
    rfl
  | cons q t ih =>
    intro heap came
    rw [pushNeighbors_cons]
    unfold pushNeighborsNC
    rw [List.foldl_cons]
    split_ifs with hq
    · rw [ih heap came]; rfl
    · rw [ih _ _]; rfl

theorem sum_heappush (w : Node → Nat) (l : List Node) (x : Node) :
    ((heappush l x).map w).sum = w x + (l.map w).sum := by
  have := (heappush_perm l x).map w
  rw [this.sum_eq]
  simp

theorem pushNeighbors_sum_le (endc : Coord) (cur : Node) (closed' : Finset Coord)
    (w : Node → Nat) (w0 : Nat)
    (hw : ∀ q : Coord, w (Node.mk q.1 q.2 (cur.g + 1) (heuristic q endc) (some cur)) = w0) :
    ∀ (nbrs : List Coord) (heap : List Node) (came : Coord → Option Node),
      (((pushNeighbors endc cur closed' nbrs heap came).1.map w).sum) ≤
        (heap.map w).sum + nbrs.length * w0 := by
  intro nbrs
  induction nbrs with
  | nil =>
    intro heap came
    rw [pushNeighbors_nil]
    simp
  | cons q t ih =>
    intro heap came
    rw [pushNeighbors_cons]
    split_ifs with hq
    · refine le_trans (ih heap came) ?_
      simp only [List.length_cons]
      have : t.length * w0 ≤ (t.length + 1) * w0 := Nat.mul_le_mul_right _ (by omega)
      omega
    · refine le_trans (ih _ _) ?_
      rw [sum_heappush, hw q]
      simp only [List.length_cons]
      have : (t.length + 1) * w0 = t.length * w0 + w0 := by ring
      omega

theorem pushNeighbors_fst_all_closed (endc : Coord) (cur : Node) (closed' : Finset Coord) :
    ∀ (nbrs : List Coord) (heap : List Node) (came : Coord → Option Node),
      (∀ q ∈ nbrs, q ∈ closed') →
      (pushNeighbors endc cur closed' nbrs heap came).1 = heap := by
  intro nbrs
  induction nbrs with
  | nil =>
    intro heap came _
    rfl
  | cons q t ih =>
    intro heap came hall
    rw [pushNeighbors_cons, if_pos (hall q (List.mem_cons_self _ _))]
    exact ih heap came (fun q' hq' => hall q' (List.mem_cons_of_mem _ hq'))

/-! ## One iteration of the main loop -/

theorem astarStep_exhausted_iff (n : Nat) (obst : Finset Coord) (endc : Coord)
    (st : SearchState) :
    astarStep n obst endc st = .exhausted ↔ st.open_set = [] := by
  constructor
  · intro h
    unfold astarStep at h
    cases hpop : heappop st.open_set with
    | none => exact (heappop_none_iff st.open_set).mp hpop
    | some pr =>
      obtain ⟨cur, rest⟩ := pr
      rw [hpop] at h
      dsimp only at h
      split_ifs at h
  · intro h
    unfold astarStep
    rw [(heappop_none_iff st.open_set).mpr h]

theorem astarStep_found_elim {n : Nat} {obst : Finset Coord} {endc : Coord}
    {st : SearchState} {p : List Coord}
    (h : astarStep n obst endc st = .found p) :
    ∃ cur rest, heappop st.open_set = some (cur, rest) ∧
      (cur.x, cur.y) = endc ∧ p = cur.chain.reverse := by
  unfold astarStep at h
  cases hpop : heappop st.open_set with
  | none => rw [hpop] at h; cases h
  | some pr =>
    obtain ⟨cur, rest⟩ := pr
    rw [hpop] at h
    dsimp only at h
    split_ifs at h with hcond
    cases h
    exact ⟨cur, rest, rfl, hcond, rfl⟩

theorem astarStep_next_elim {n : Nat} {obst : Finset Coord} {endc : Coord}
    {st st' : SearchState}
    (h : astarStep n obst endc st = .next st') :
    ∃ cur rest, heappop st.open_set = some (cur, rest) ∧
      (cur.x, cur.y) ≠ endc ∧
      st'.closed_set = insert (cur.x, cur.y) st.closed_set ∧
      st'.open_set = (pushNeighbors endc cur (insert (cur.x, cur.y) st.closed_set)
        (get_neighbors n obst cur) rest st.came_from).1 ∧
      st'.came_from = (pushNeighbors endc cur (insert (cur.x, cur.y) st.closed_set)
        (get_neighbors n obst cur) rest st.came_from).2 := by
  unfold astarStep at h
  cases hpop : heappop st.open_set with
  | none => rw [hpop] at h; cases h
  | some pr =>
    obtain ⟨cur, rest⟩ := pr
    rw [hpop] at h
    dsimp only at h
    split_ifs at h with hcond
    cases h
    exact ⟨cur, rest, rfl, hcond, rfl, rfl, rfl⟩

/-! ## Preservation of the state invariant -/

theorem stInv_init (n : Nat) (obst : Finset Coord) (s e : Coord) :
    StInv n obst s e (initState s e) := by
  constructor
  · intro v hv
    unfold initState at hv
    dsimp only at hv
    rcases mem_heappush.mp hv with rfl | hv
    · refine ⟨⟨rfl, rfl, rfl⟩, ?_, ?_⟩
      · intro c hc
        rw [chain_root] at hc
        simp at hc
      · rw [chain_root]
        simp
    · simp at hv
  · unfold initState
    dsimp only
    exact heappush_heapOrd [] _ (by intro j hj0 hjl; simp at hjl)

theorem stInv_step {n : Nat} {obst : Finset Coord} {s e : Coord}
    {st st' : SearchState} (hinv : StInv n obst s e st)
    (h : astarStep n obst e st = .next st') : StInv n obst s e st' := by
  obtain ⟨cur, rest, hpop, hne, hcl, hop, hcf⟩ := astarStep_next_elim h
  obtain ⟨hcurmem, hrestmem⟩ := heappop_mem hpop
  have hcuri := hinv.mem cur hcurmem
  constructor
  · intro v hv
    rw [hop] at hv
    rcases pushNeighbors_fst_mem _ _ _ _ _ _ v hv with hvr | ⟨q, hq, hqnc, rfl⟩
    · -- a surviving frontier node: the invariant is monotone in the closed set
      have := hinv.mem v (hrestmem v hvr)
      refine ⟨this.ok, ?_, this.nd⟩
      intro c hc
      rw [hcl]
      exact Finset.mem_insert_of_mem (this.anc c hc)
    · -- a freshly pushed node
      obtain ⟨hadj, hinb, hnobst⟩ := mem_get_neighbors.mp hq
      have hchain : cur.chain = cur.coord :: cur.chain.tail := chain_cons cur
      have hallcl : ∀ c ∈ cur.chain, c ∈ insert (cur.x, cur.y) st.closed_set := by
        intro c hc
        rw [hchain] at hc
        rcases List.mem_cons.mp hc with rfl | hc
        · exact Finset.mem_insert_self _ _
        · exact Finset.mem_insert_of_mem (hcuri.anc c hc)
      have hqeta : ((q.1, q.2) : Coord) = q := rfl
      refine ⟨?_, ?_, ?_⟩
      · exact ⟨rfl, by rw [hqeta]; exact hinb, by rw [hqeta]; exact hnobst,
          by rw [hqeta]; exact hadj, rfl, hcuri.ok⟩
      · intro c hc
        rw [chain_parent] at hc
        rw [hcl]
        exact hallcl c hc
      · rw [chain_parent]
        refine List.Nodup.cons ?_ hcuri.nd
        intro hmem
        exact hqnc (by rw [← hqeta]; exact hallcl _ hmem)
  · rw [hop]
    exact pushNeighbors_heapOrd _ _ _ _ _ _
      (heappop_heapOrd hinv.ord hpop)

/-! ## The main loop -/

theorem astarLoop_zero (n : Nat) (obst : Finset Coord) (endc : Coord)
    (st : SearchState) : astarLoop n obst endc 0 st = none := rfl

theorem astarLoop_succ (n : Nat) (obst : Finset Coord) (endc : Coord)
    (fuel : Nat) (st : SearchState) :
    astarLoop n obst endc (fuel + 1) st =
      match astarStep n obst endc st with
      | .exhausted => some (none, 0)
      | .found p => some (some p, 1)
      | .next st' => (astarLoop n obst endc fuel st').map (fun r => (r.1, r.2 + 1)) := rfl

theorem astarLoop_found_chain {n : Nat} {obst : Finset Coord} {s e : Coord} :
    ∀ (fuel : Nat) (st : SearchState) (r : List Coord) (k : Nat),
      StInv n obst s e st →
      astarLoop n obst e fuel st = some (some r, k) →
      ∃ cur : Node, chainOK n obst s e cur ∧ (cur.x, cur.y) = e ∧
        r = cur.chain.reverse := by
  intro fuel
  induction fuel with
  | zero =>
    intro st r k _ h
    rw [astarLoop_zero] at h
    cases h
  | succ fuel ih =>
    intro st r k hinv h
    rw [astarLoop_succ] at h
    cases hstep : astarStep n obst e st with
    | exhausted =>
      rw [hstep] at h
      simp at h
    | found p =>
      rw [hstep] at h
      have hp : p = r := by
        have h2 := Option.some_inj.mp h
        exact Option.some_inj.mp (congrArg Prod.fst h2)
      obtain ⟨cur, rest, hpop, hcoord, hrec⟩ := astarStep_found_elim hstep
      have hcur := hinv.mem cur (heappop_mem hpop).1
      exact ⟨cur, hcur.ok, hcoord, by rw [← hp, hrec]⟩
    | next st' =>
      rw [hstep] at h
      rcases Option.map_eq_some'.mp h with ⟨⟨r', k'⟩, hr', heq⟩
      have hr : r' = some r := congrArg Prod.fst heq
      subst hr
      exact ih st' r k' (stInv_step hinv hstep) hr'

theorem adjacent_symm {a b : Coord} (h : adjacent a b) : adjacent b a := by
  unfold adjacent at h ⊢
  omega

/-- C1 core: any returned path comes from a well-formed chain ending at the
goal coordinate. -/
theorem astar_some_chain {n : Nat} {obst : Finset Coord} {s e : Coord}
    {p : List Coord} (h : astar n obst s e = some p) :
    ∃ cur : Node, chainOK n obst s e cur ∧ (cur.x, cur.y) = e ∧
      p = cur.chain.reverse := by
  unfold astar searchRun at h
  cases hrun : astarLoop n obst e (astarFuel n) (initState s e) with
  | none => rw [hrun] at h; cases h
  | some pr =>
    obtain ⟨r, k⟩ := pr
    rw [hrun] at h
    dsimp only at h
    subst h
    exact astarLoop_found_chain (astarFuel n) (initState s e) p k
      (stInv_init n obst s e) hrun

/-- C1: for every grid, every in-bounds unblocked start and end, and every
path returned by `find_path(grid, start, end)`, the result is a valid route:
it starts at `start`, ends at `end`, moves by exactly one orthogonal unit
step at a time, and never visits a blocked coordinate. -/
theorem find_path_valid_route (g : Grid) (s e : Coord)
    (hs : inBoundsI g.size s) (he : inBoundsI g.size e)
    (hso : s ∉ g.obstacles) (heo : e ∉ g.obstacles) :
    ∀ p, find_path g s e = some p →
      IsRoute p s e ∧ ∀ c ∈ p, c ∉ g.obstacles := by
  intro p hp
  obtain ⟨cur, hok, hcoord, hrev⟩ := astar_some_chain hp
  have hne : p ≠ [] := by
    rw [hrev]
    simpa using chain_ne_nil cur
  have hhead : p.head? = some s := by
    rw [hrev, List.head?_reverse]
    exact chainOK_getLast cur hok
  have hlast : p.getLast? = some e := by
    rw [hrev, List.getLast?_reverse, chain_head cur]
    rw [show cur.coord = (cur.x, cur.y) from rfl, hcoord]
  have hchain : p.Chain' adjacent := by
    rw [hrev, List.chain'_reverse]
    exact (chainOK_chain' cur hok).imp (fun a b hab => adjacent_symm hab)
  refine ⟨⟨hne, hhead, hlast, hchain⟩, ?_⟩
  intro c hc
  rw [hrev, List.mem_reverse] at hc
  rcases chainOK_mem cur hok c hc with rfl | ⟨_, hno⟩
  · exact hso
  · exact hno

theorem find_path_valid_route_witness :
    IsRoute [((0 : Int), (0 : Int)), (1, 0), (1, 1)] (0, 0) (1, 1) ∧
      ∀ c ∈ [((0 : Int), (0 : Int)), (1, 0), (1, 1)],
        c ∉ (Grid.mk 2 ∅).obstacles :=
  find_path_valid_route (Grid.mk 2 ∅) (0, 0) (1, 1)
    (by decide) (by decide) (by decide) (by decide)
    [((0 : Int), (0 : Int)), (1, 0), (1, 1)] (by rfl)

/-! ## Termination and the iteration count -/

theorem mem_gridFinset {n : Nat} {c : Coord} : c ∈ gridFinset n ↔ inBoundsI n c := by
  unfold gridFinset inBoundsI
  rw [Finset.mem_product, Finset.mem_Icc, Finset.mem_Icc]
  omega

theorem card_gridFinset (n : Nat) : (gridFinset n).card = n * n := by
  unfold gridFinset
  rw [Finset.card_product, Int.card_Icc]
  have h1 : ((n : Int) - 1 + 1 - 0).toNat = n := by omega
  rw [h1]

theorem nodeInv_chain_le {n : Nat} {obst : Finset Coord} {s e : Coord}
    {closed : Finset Coord} {v : Node} (hv : NodeInv n obst s e closed v) :
    v.chain.length ≤ n * n + 1 := by
  have hsub : v.chain.toFinset ⊆ insert s (gridFinset n) := by
    intro c hc
    rw [List.mem_toFinset] at hc
    rcases chainOK_mem v hv.ok c hc with rfl | ⟨hb, _⟩
    · exact Finset.mem_insert_self _ _
    · exact Finset.mem_insert_of_mem (mem_gridFinset.mpr hb)
  have hcard : v.chain.toFinset.card = v.chain.length :=
    List.toFinset_card_of_nodup hv.nd
  have h1 := Finset.card_le_card hsub
  have h2 := Finset.card_insert_le s (gridFinset n)
  rw [hcard] at h1
  rw [card_gridFinset] at h2
  omega

theorem chain_full_mem {n : Nat} {obst : Finset Coord} {s e : Coord}
    {closed : Finset Coord} {v : Node} (hv : NodeInv n obst s e closed v)
    (hlen : v.chain.length = n * n + 1) {q : Coord} (hq : inBoundsI n q) :
    q ∈ v.chain := by
  have hsub : v.chain.toFinset ⊆ insert s (gridFinset n) := by
    intro c hc
    rw [List.mem_toFinset] at hc
    rcases chainOK_mem v hv.ok c hc with rfl | ⟨hb, _⟩
    · exact Finset.mem_insert_self _ _
    · exact Finset.mem_insert_of_mem (mem_gridFinset.mpr hb)
  have hcard1 : v.chain.toFinset.card = n * n + 1 := by
    rw [List.toFinset_card_of_nodup hv.nd, hlen]
  have h2 := Finset.card_insert_le s (gridFinset n)
  rw [card_gridFinset] at h2
  have heq : v.chain.toFinset = insert s (gridFinset n) :=
    Finset.eq_of_subset_of_card_le hsub (by omega)
  have hmem : q ∈ insert s (gridFinset n) :=
    Finset.mem_insert_of_mem (mem_gridFinset.mpr hq)
  rw [← heq, List.mem_toFinset] at hmem
  exact hmem

theorem phi_step_lt {n : Nat} {obst : Finset Coord} {s e : Coord}
    {st st' : SearchState} (hinv : StInv n obst s e st)
    (h : astarStep n obst e st = .next st') : phi n st' < phi n st := by
  obtain ⟨cur, rest, hpop, hne, hcl, hop, hcf⟩ := astarStep_next_elim h
  have hcuri := hinv.mem cur (heappop_mem hpop).1
  set w : Node → Nat := fun v => 5 ^ (n * n + 1 - v.chain.length) with hw
  have hperm := heappop_perm hpop
  have hsum : phi n st = w cur + (rest.map w).sum := by
    unfold phi
    rw [(hperm.map _).sum_eq]
    simp [hw]
  set L := cur.chain.length with hLdef
  have hL := nodeInv_chain_le hcuri
  rw [← hLdef] at hL
  have hw0 : ∀ q : Coord,
      w (Node.mk q.1 q.2 (cur.g + 1) (heuristic q e) (some cur)) =
        5 ^ (n * n + 1 - (L + 1)) := by
    intro q
    rw [hw]
    dsimp only
    rw [chain_parent, List.length_cons, ← hLdef]
  have hwcur : w cur = 5 ^ (n * n + 1 - L) := by rw [hw]
  rcases Nat.lt_or_ge L (n * n + 1) with hcase | hcase
  · -- at most 4 pushes, each lighter by a factor of 5
    have hlen4 := get_neighbors_length_le n obst cur
    have hb := pushNeighbors_sum_le e cur (insert (cur.x, cur.y) st.closed_set) w _ hw0
      (get_neighbors n obst cur) rest st.came_from
    have hstep1 : phi n st' ≤ (rest.map w).sum +
        (get_neighbors n obst cur).length * 5 ^ (n * n + 1 - (L + 1)) := by
      unfold phi
      rw [hop]
      exact hb
    have hstep2 : (get_neighbors n obst cur).length * 5 ^ (n * n + 1 - (L + 1)) ≤
        4 * 5 ^ (n * n + 1 - (L + 1)) := Nat.mul_le_mul_right _ hlen4
    have hstep3 : 4 * 5 ^ (n * n + 1 - (L + 1)) < w cur := by
      rw [hwcur]
      have hE : n * n + 1 - L = (n * n + 1 - (L + 1)) + 1 := by omega
      rw [hE, pow_succ]
      have hp : 0 < 5 ^ (n * n + 1 - (L + 1)) := Nat.pos_pow_of_pos _ (by omega)
      omega
    omega
  · -- the chain already visits every in-bounds cell: nothing can be pushed
    have hL1 : L = n * n + 1 := by omega
    have hall : ∀ q ∈ get_neighbors n obst cur,
        q ∈ insert (cur.x, cur.y) st.closed_set := by
      intro q hq
      obtain ⟨hadj, hinb, hnob⟩ := mem_get_neighbors.mp hq
      have hqchain : q ∈ cur.chain := chain_full_mem hcuri (hLdef ▸ hL1) hinb
      rw [chain_cons cur] at hqchain
      rcases List.mem_cons.mp hqchain with rfl | hq2
      · exact Finset.mem_insert_self _ _
      · exact Finset.mem_insert_of_mem (hcuri.anc q hq2)
    have hopen : st'.open_set = rest := by
      rw [hop]
      exact pushNeighbors_fst_all_closed _ _ _ _ _ _ hall
    have hwpos : 0 < w cur := by rw [hwcur]; exact Nat.pos_pow_of_pos _ (by omega)
    have : phi n st' = (rest.map w).sum := by
      unfold phi
      rw [hopen]
    omega

theorem astarLoop_total {n : Nat} {obst : Finset Coord} {s e : Coord} :
    ∀ (fuel : Nat) (st : SearchState), StInv n obst s e st → phi n st < fuel →
      astarLoop n obst e fuel st ≠ none := by
  intro fuel
  induction fuel with
  | zero =>
    intro st _ hlt
    omega
  | succ fuel ih =>
    intro st hinv hlt
    rw [astarLoop_succ]
    cases hstep : astarStep n obst e st with
    | exhausted => simp
    | found p => simp
    | next st' =>
      dsimp only
      intro hmap
      exact ih st' (stInv_step hinv hstep)
        (by have := phi_step_lt hinv hstep; omega)
        (Option.map_eq_none'.mp hmap)

theorem phi_init (n : Nat) (s e : Coord) : phi n (initState s e) = 5 ^ (n * n) := by
  unfold phi initState
  dsimp only
  rw [((heappush_perm [] _).map _).sum_eq]
  simp [chain_root]

theorem searchRun_ne_none (n : Nat) (obst : Finset Coord) (s e : Coord) :
    searchRun n obst s e ≠ none := by
  unfold searchRun
  refine astarLoop_total (s := s) (astarFuel n) _ (stInv_init n obst s e) ?_
  rw [phi_init]
  unfold astarFuel
  omega

theorem astarLoop_iter_le {n : Nat} {obst : Finset Coord} {s e : Coord} :
    ∀ (fuel : Nat) (st : SearchState) (r : Option (List Coord)) (k : Nat),
      StInv n obst s e st → astarLoop n obst e fuel st = some (r, k) →
      k ≤ phi n st + 1 := by
  intro fuel
  induction fuel with
  | zero =>
    intro st r k _ h
    cases h
  | succ fuel ih =>
    intro st r k hinv h
    rw [astarLoop_succ] at h
    cases hstep : astarStep n obst e st with
    | exhausted =>
      rw [hstep] at h
      have : k = 0 := by
        have h2 := Option.some_inj.mp h
        exact (congrArg Prod.snd h2).symm
      omega
    | found p =>
      rw [hstep] at h
      have : k = 1 := by
        have h2 := Option.some_inj.mp h
        exact (congrArg Prod.snd h2).symm
      omega
    | next st' =>
      rw [hstep] at h
      rcases Option.map_eq_some'.mp h with ⟨⟨r', k'⟩, hr', heq⟩
      have hk : k = k' + 1 := by
        have := congrArg Prod.snd heq
        exact this.symm
      have h1 := ih st' r' k' (stInv_step hinv hstep) hr'
      have h2 := phi_step_lt hinv hstep
      omega

theorem astarLoop_none_iter_ge {n : Nat} {obst : Finset Coord} {e : Coord} :
    ∀ (f F : Nat) (st : SearchState) (r : Option (List Coord)) (k : Nat),
      astarLoop n obst e f st = none → astarLoop n obst e F st = some (r, k) →
      f ≤ k := by
  intro f
  induction f with
  | zero =>
    intro F st r k _ _
    omega
  | succ f ih =>
    intro F st r k hnone hsome
    cases F with
    | zero => cases hsome
    | succ F =>
      rw [astarLoop_succ] at hnone hsome
      cases hstep : astarStep n obst e st with
      | exhausted => rw [hstep] at hnone; cases hnone
      | found p => rw [hstep] at hnone; cases hnone
      | next st' =>
        rw [hstep] at hnone hsome
        rcases Option.map_eq_some'.mp hsome with ⟨⟨r', k'⟩, hr', heq⟩
        have hk : k = k' + 1 := by
          have := congrArg Prod.snd heq
          exact this.symm
        have := ih F st' r' k' (Option.map_eq_none'.mp hnone) hr'
        omega

/-- C4 (amended): for every grid, start and end, the search terminates — the
fuel `5^(n²) + 1` given to the embedded loop is never exhausted — and the
number of main-loop iterations is at most `5^(n²) + 1`.  (The spec's claimed
bound of `4·n²` iterations does not hold; see the counterexample below.) -/
theorem find_path_terminates (g : Grid) (s e : Coord) :
    ∃ k, searchIterations g s e = some k ∧ k ≤ 5 ^ (g.size * g.size) + 1 := by
  cases hrun : searchRun g.size g.obstacles s e with
  | none => exact absurd hrun (searchRun_ne_none _ _ _ _)
  | some pr =>
    obtain ⟨r, k⟩ := pr
    refine ⟨k, ?_, ?_⟩
    · unfold searchIterations
      rw [hrun]
      rfl
    · have h1 := astarLoop_iter_le (s := s) (astarFuel g.size) (initState s e) r k
        (stInv_init g.size g.obstacles s e) hrun
      rw [phi_init] at h1
      omega

set_option maxRecDepth 2000000 in
/-- C4's stated iteration bound is false: on the 6 × 6 grid with obstacles
`{(1,0), (0,1)}`, start `(1,1)` and end `(0,0)` (the end walled off in the
corner), the loop is still running after 145 iterations, exceeding the
claimed bound of `4 · 6² = 144`. -/
theorem iterBound_false : ¬ IterBound := by
  intro hcl
  have hnone : astarLoop 6 {((1 : Int), (0 : Int)), ((0 : Int), (1 : Int))}
      ((0 : Int), (0 : Int)) 145 (initState (1, 1) (0, 0)) = none := by rfl
  cases hrun : searchRun 6 {((1 : Int), (0 : Int)), ((0 : Int), (1 : Int))}
      (1, 1) (0, 0) with
  | none => exact absurd hrun (searchRun_ne_none _ _ _ _)
  | some pr =>
    obtain ⟨r, k⟩ := pr
    have hk : searchIterations
        (Grid.mk 6 {((1 : Int), (0 : Int)), ((0 : Int), (1 : Int))}) (1, 1) (0, 0) =
        some k := by
      unfold searchIterations
      rw [show (Grid.mk 6 {((1 : Int), (0 : Int)), ((0 : Int), (1 : Int))}).size = 6
        from rfl]
      rw [show (Grid.mk 6 {((1 : Int), (0 : Int)), ((0 : Int), (1 : Int))}).obstacles =
        {((1 : Int), (0 : Int)), ((0 : Int), (1 : Int))} from rfl]
      rw [hrun]
      rfl
    have hle := hcl _ (1, 1) (0, 0) k hk
    have hge : 145 ≤ k := by
      refine astarLoop_none_iter_ge 145 (astarFuel 6) (initState (1, 1) (0, 0)) r k
        hnone ?_
      exact hrun
    simp only [show (Grid.mk 6 {((1 : Int), (0 : Int)), ((0 : Int), (1 : Int))}).size = 6
      from rfl] at hle
    omega

/-! ## The heuristic (C5) -/

theorem heuristic_le_route :
    ∀ (l : List Coord) (a b : Coord), l.head? = some a → l.getLast? = some b →
      l.Chain' adjacent → heuristic a b ≤ (l.length : Int) - 1
  | [], a, b => by intro h; cases h
  | [c], a, b => by
    intro h1 h2 _
    simp at h1 h2
    subst h1
    subst h2
    rw [heuristic_self]
    simp
  | c :: d :: t, a, b => by
    intro h1 h2 hch
    have hac : a = c := by simpa using h1.symm
    subst hac
    rw [List.chain'_cons] at hch
    have hrec := heuristic_le_route (d :: t) d b rfl (by simpa using h2) hch.2
    have htri := heuristic_triangle a d b
    have hone : heuristic a d = 1 := heuristic_adjacent hch.1
    simp only [List.length_cons] at hrec ⊢
    push_cast at hrec ⊢
    omega

/-- C5: `heuristic(a, b)` is the Manhattan distance `|Δx| + |Δy|`, a
non-negative integer; it is admissible (it never exceeds the number of moves
of any obstacle-free 4-directional route on any grid) and consistent
(`heuristic(a, b) ≤ 1 + heuristic(a', b)` for every orthogonal neighbour
`a'` of `a`). -/
theorem heuristic_spec (a b : Coord) :
    heuristic a b = |a.1 - b.1| + |a.2 - b.2| ∧
    0 ≤ heuristic a b ∧
    (∀ (g : Grid) (l : List Coord), IsRoute l a b →
      (∀ c ∈ l, c ∉ g.obstacles) → heuristic a b ≤ (l.length : Int) - 1) ∧
    (∀ a' : Coord, adjacent a a' → heuristic a b ≤ 1 + heuristic a' b) := by
  refine ⟨?_, heuristic_nonneg a b, ?_, ?_⟩
  · unfold heuristic
    rw [Int.abs_eq_natAbs, Int.abs_eq_natAbs]
  · intro g l hroute _
    exact heuristic_le_route l a b hroute.2.1 hroute.2.2.1 hroute.2.2.2
  · intro a' hadj
    have h1 : heuristic a a' = 1 := heuristic_adjacent hadj
    have h2 := heuristic_triangle a a' b
    omega

theorem heuristic_spec_witness :
    heuristic ((0 : Int), (0 : Int)) (1, 1) ≤
      (([((0 : Int), (0 : Int)), (0, 1), (1, 1)] : List Coord).length : Int) - 1 ∧
    heuristic ((0 : Int), (0 : Int)) (1, 1) ≤ 1 + heuristic (1, 0) (1, 1) :=
  ⟨(heuristic_spec ((0 : Int), (0 : Int)) (1, 1)).2.2.1 (Grid.mk 2 ∅)
      [((0 : Int), (0 : Int)), (0, 1), (1, 1)]
      ⟨by decide, by decide, by decide,
        List.chain'_cons.mpr ⟨by decide,
          List.chain'_cons.mpr ⟨by decide, List.chain'_singleton _⟩⟩⟩ (by decide),
   (heuristic_spec ((0 : Int), (0 : Int)) (1, 1)).2.2.2 (1, 0) (by decide)⟩

/-! ## Start equal to end (C6) -/

theorem astarStep_init_self (n : Nat) (obst : Finset Coord) (c : Coord) :
    astarStep n obst c (initState c c) = .found [c] := by
  unfold astarStep initState
  have hpop : heappop (heappush [] (Node.mk c.1 c.2 0 (heuristic c c) none)) =
      some (Node.mk c.1 c.2 0 (heuristic c c) none, []) := rfl
  rw [hpop]
  dsimp only
  rw [if_pos (show ((Node.mk c.1 c.2 0 (heuristic c c) none).x,
    (Node.mk c.1 c.2 0 (heuristic c c) none).y) = c from rfl)]
  rfl

/-- C6: for every grid and every in-bounds unblocked coordinate `c`,
`find_path(grid, c, c)` returns the single-element path `[c]`. -/
theorem find_path_self (g : Grid) (c : Coord)
    (hb : inBoundsI g.size c) (hc : c ∉ g.obstacles) :
    find_path g c c = some [c] := by
  unfold find_path astar searchRun
  rw [show astarFuel g.size = 5 ^ (g.size * g.size) + 1 from rfl,
    astarLoop_succ, astarStep_init_self]

theorem find_path_self_witness :
    find_path (Grid.mk 1 ∅) (0, 0) (0, 0) = some [((0 : Int), (0 : Int))] :=
  find_path_self (Grid.mk 1 ∅) (0, 0) (by decide) (by decide)

/-! ## Searches that can never reach the goal (C7, C10) -/

theorem astarLoop_never_found {n : Nat} {obst : Finset Coord} {e : Coord}
    (P : Coord → Prop) (hPe : ∀ c, P c → c ≠ e)
    (hpush : ∀ cur : Node, P (cur.x, cur.y) →
      ∀ q ∈ get_neighbors n obst cur, P q) :
    ∀ (fuel : Nat) (st : SearchState) (r : Option (List Coord)) (k : Nat),
      (∀ v ∈ st.open_set, P (v.x, v.y)) →
      astarLoop n obst e fuel st = some (r, k) → r = none := by
  intro fuel
  induction fuel with
  | zero =>
    intro st r k _ h
    cases h
  | succ fuel ih =>
    intro st r k hP h
    rw [astarLoop_succ] at h
    cases hstep : astarStep n obst e st with
    | exhausted =>
      rw [hstep] at h
      have h2 := Option.some_inj.mp h
      exact (congrArg Prod.fst h2).symm
    | found p =>
      rw [hstep] at h
      obtain ⟨cur, rest, hpop, hcoord, _⟩ := astarStep_found_elim hstep
      exact absurd hcoord (hPe _ (hP cur (heappop_mem hpop).1))
    | next st' =>
      rw [hstep] at h
      rcases Option.map_eq_some'.mp h with ⟨⟨r', k'⟩, hr', heq⟩
      have hr : r = r' := (congrArg Prod.fst heq).symm
      subst hr
      refine ih st' r k' ?_ hr'
      obtain ⟨cur, rest, hpop, _, _, hop, _⟩ := astarStep_next_elim hstep
      intro v hv
      rw [hop] at hv
      rcases pushNeighbors_fst_mem _ _ _ _ _ _ v hv with hvr | ⟨q, hq, _, rfl⟩
      · exact hP v ((heappop_mem hpop).2 v hvr)
      · exact hpush cur (hP cur (heappop_mem hpop).1) q hq

theorem astar_eq_none_of_pred {n : Nat} {obst : Finset Coord} {s e : Coord}
    (P : Coord → Prop) (hPe : ∀ c, P c → c ≠ e)
    (hpush : ∀ cur : Node, P (cur.x, cur.y) →
      ∀ q ∈ get_neighbors n obst cur, P q)
    (hs : P s) : astar n obst s e = none := by
  unfold astar searchRun
  cases hrun : astarLoop n obst e (astarFuel n) (initState s e) with
  | none => rfl
  | some pr =>
    obtain ⟨r, k⟩ := pr
    dsimp only
    refine astarLoop_never_found P hPe hpush (astarFuel n) (initState s e) r k ?_ hrun
    intro v hv
    unfold initState at hv
    dsimp only at hv
    rcases mem_heappush.mp hv with rfl | hv
    · exact hs
    · simp at hv

/-- C10: for every grid and every pair of distinct coordinates
`start ≠ end` with `end` in the obstacle set, `find_path(grid, start, end)`
returns NOT_FOUND: a blocked end is never pushed onto the frontier because
neighbour expansion filters blocked cells. -/
theorem find_path_blocked_end (g : Grid) (s e : Coord)
    (hne : s ≠ e) (he : e ∈ g.obstacles) : find_path g s e = none := by
  unfold find_path
  refine astar_eq_none_of_pred (fun c => c ≠ e) (fun c hc => hc) ?_ hne
  intro cur _ q hq
  obtain ⟨_, _, hnob⟩ := mem_get_neighbors.mp hq
  intro hqe
  subst hqe
  exact hnob he

theorem find_path_blocked_end_witness :
    find_path (Grid.mk 2 {((1 : Int), (1 : Int))}) (0, 0) (1, 1) = none :=
  find_path_blocked_end (Grid.mk 2 {((1 : Int), (1 : Int))}) (0, 0) (1, 1)
    (by decide) (by decide)

/-- C7 (amended with `start ≠ end`): if every in-bounds orthogonal
neighbour of `end` is blocked, and `start` and `end` are in-bounds,
unblocked and distinct, then `find_path(grid, start, end)` returns
NOT_FOUND. -/
theorem find_path_surrounded (g : Grid) (s e : Coord)
    (hs : inBoundsI g.size s) (he : inBoundsI g.size e)
    (hso : s ∉ g.obstacles) (heo : e ∉ g.obstacles) (hne : s ≠ e)
    (hsur : ∀ q : Coord, adjacent q e → inBoundsI g.size q → q ∈ g.obstacles) :
    find_path g s e = none := by
  unfold find_path
  refine astar_eq_none_of_pred (fun c => c ≠ e ∧ ¬ adjacent c e)
    (fun c hc => hc.1) ?_ ⟨hne, ?_⟩
  · intro cur hcur q hq
    obtain ⟨hadj, hinb, hnob⟩ := mem_get_neighbors.mp hq
    constructor
    · intro hqe
      subst hqe
      exact hcur.2 (adjacent_symm hadj)
    · intro hqadj
      exact hnob (hsur q hqadj hinb)
  · intro hadj
    exact hso (hsur s hadj hs)

theorem find_path_surrounded_witness :
    find_path (Grid.mk 4 {((1 : Int), (0 : Int)), ((0 : Int), (1 : Int))})
      (2, 2) (0, 0) = none :=
  find_path_surrounded
    (Grid.mk 4 {((1 : Int), (0 : Int)), ((0 : Int), (1 : Int))}) (2, 2) (0, 0)
    (by decide) (by decide) (by decide) (by decide) (by decide)
    (by
      intro q hadj hinb
      unfold adjacent at hadj
      unfold inBoundsI at hinb
      rw [show (Grid.mk 4 {((1 : Int), (0 : Int)), ((0 : Int), (1 : Int))}).size = 4
        from rfl] at hinb
      have : (q.1 = 1 ∧ q.2 = 0) ∨ (q.1 = 0 ∧ q.2 = 1) := by omega
      rcases this with ⟨h1, h2⟩ | ⟨h1, h2⟩ <;>
        (have hq : q = ((q.1 : Int), (q.2 : Int)) := rfl
         rw [hq, h1, h2]; decide))

/-- C7 as stated — without requiring `start ≠ end` — is false: on the 1 × 1
grid all four neighbours of `(0,0)` are out of bounds, `(0,0)` is in-bounds
and unblocked, yet `find_path` with `start = end = (0,0)` returns the path
`[(0,0)]`, not NOT_FOUND. -/
theorem surrounded_claim_false :
    inBoundsI (Grid.mk 1 ∅).size ((0 : Int), (0 : Int)) ∧
    ((0 : Int), (0 : Int)) ∉ (Grid.mk 1 ∅).obstacles ∧
    (∀ q : Coord, adjacent q ((0 : Int), (0 : Int)) →
      inBoundsI (Grid.mk 1 ∅).size q → q ∈ (Grid.mk 1 ∅).obstacles) ∧
    find_path (Grid.mk 1 ∅) (0, 0) (0, 0) ≠ none := by
  refine ⟨by decide, by decide, ?_, ?_⟩
  · intro q hadj hinb
    unfold adjacent at hadj
    unfold inBoundsI at hinb
    rw [show (Grid.mk 1 ∅).size = 1 from rfl] at hinb
    omega
  · have h : find_path (Grid.mk 1 ∅) (0, 0) (0, 0) = some [((0 : Int), (0 : Int))] := by
      rfl
    rw [h]
    simp

/-! ## The grid model is never mutated (C8) -/

theorem astarStepSt_eq (g : Grid) (endc : Coord) (st : SearchState) :
    astarStepSt g endc st = (astarStep g.size g.obstacles endc st, g) := by
  unfold astarStepSt astarStep get_neighborsSt
  cases heappop st.open_set with
  | none => rfl
  | some pr =>
    obtain ⟨cur, rest⟩ := pr
    dsimp only
    split_ifs <;> rfl

theorem astarLoopSt_succ (endc : Coord) (fuel : Nat) (g : Grid) (st : SearchState) :
    astarLoopSt endc (fuel + 1) g st =
      match astarStepSt g endc st with
      | (.exhausted, g') => (some (none, 0), g')
      | (.found p, g') => (some (some p, 1), g')
      | (.next st', g') =>
        let r := astarLoopSt endc fuel g' st'
        (r.1.map (fun x => (x.1, x.2 + 1)), r.2) := rfl

theorem astarLoopSt_eq (endc : Coord) :
    ∀ (fuel : Nat) (g : Grid) (st : SearchState),
      astarLoopSt endc fuel g st = (astarLoop g.size g.obstacles endc fuel st, g) := by
  intro fuel
  induction fuel with
  | zero => intro g st; rfl
  | succ fuel ih =>
    intro g st
    rw [astarLoopSt_succ, astarStepSt_eq, astarLoop_succ]
    cases hstep : astarStep g.size g.obstacles endc st with
    | exhausted => rfl
    | found p => rfl
    | next st' =>
      dsimp only
      rw [ih g st']

/-- C8: `find_path` leaves the grid model unchanged — with the grid state
threaded explicitly through every operation of the engine, the grid after
the call has the same obstacle set and the same dimension as before, whether
the result is a path or NOT_FOUND; and the threaded engine computes the same
result as `find_path`. -/
theorem find_path_frame (g : Grid) (s e : Coord) :
    (find_pathSt g s e).2.obstacles = g.obstacles ∧
    (find_pathSt g s e).2.size = g.size ∧
    (find_pathSt g s e).1 = find_path g s e := by
  unfold find_pathSt find_path astar searchRun
  rw [astarLoopSt_eq]
  exact ⟨rfl, rfl, rfl⟩

/-! ## The `came_from` map never influences the result (C9) -/

theorem astarStepNC_sim (n : Nat) (obst : Finset Coord) (endc : Coord)
    (st : SearchState) :
    astarStepNC n obst endc ⟨st.open_set, st.closed_set⟩ =
      match astarStep n obst endc st with
      | .exhausted => .exhausted
      | .found p => .found p
      | .next st' => .next ⟨st'.open_set, st'.closed_set⟩ := by
  unfold astarStepNC astarStep
  cases heappop st.open_set with
  | none => rfl
  | some pr =>
    obtain ⟨cur, rest⟩ := pr
    dsimp only
    split_ifs with h
    · rfl
    · dsimp only
      rw [pushNeighbors_fst_eq_nc]

theorem astarLoopNC_succ (n : Nat) (obst : Finset Coord) (endc : Coord)
    (fuel : Nat) (st : SearchStateNC) :
    astarLoopNC n obst endc (fuel + 1) st =
      match astarStepNC n obst endc st with
      | .exhausted => some (none, 0)
      | .found p => some (some p, 1)
      | .next st' => (astarLoopNC n obst endc fuel st').map (fun r => (r.1, r.2 + 1)) := rfl

theorem astarLoopNC_eq (n : Nat) (obst : Finset Coord) (endc : Coord) :
    ∀ (fuel : Nat) (st : SearchState),
      astarLoopNC n obst endc fuel ⟨st.open_set, st.closed_set⟩ =
        astarLoop n obst endc fuel st := by
  intro fuel
  induction fuel with
  | zero => intro st; rfl
  | succ fuel ih =>
    intro st
    rw [astarLoopNC_succ, astarLoop_succ, astarStepNC_sim]
    cases hstep : astarStep n obst endc st with
    | exhausted => rfl
    | found p => rfl
    | next st' =>
      dsimp only
      rw [ih st']

/-- C9: the returned path is derived solely from the terminal node's own
predecessor chain — the engine variant that never records a `came_from` map
and never passes one to reconstruction returns exactly the same result as
the actual engine, for every grid, start and end. -/
theorem find_path_no_came_from (g : Grid) (s e : Coord) :
    find_pathNC g s e = find_path g s e := by
  unfold find_pathNC find_path astar searchRun
  rw [show (⟨heappush [] (Node.mk s.1 s.2 0 (heuristic s e) none), ∅⟩ : SearchStateNC) =
    ⟨(initState s e).open_set, (initState s e).closed_set⟩ from rfl]
  rw [astarLoopNC_eq]

/-! ## Re-expansion of already-closed coordinates (C3) -/

/-- C3 (amended): when the popped node's coordinate is already in the closed
set, the engine does not skip it: the closed set is unchanged (re-insertion
is a no-op), but the node is re-expanded — every in-bounds unblocked
neighbour that is not yet closed is pushed again (the closed-set check
happens per neighbour at expansion time, not at pop time), and every node of
the new frontier is either a survivor of the pop or one of these fresh
nodes. -/
theorem closed_pop_reexpands {n : Nat} {obst : Finset Coord} {e : Coord}
    {st st' : SearchState} {cur : Node} {rest : List Node}
    (hpop : heappop st.open_set = some (cur, rest))
    (hclosed : (cur.x, cur.y) ∈ st.closed_set)
    (hstep : astarStep n obst e st = .next st') :
    st'.closed_set = st.closed_set ∧
    (∀ q ∈ get_neighbors n obst cur, q ∉ st.closed_set →
      Node.mk q.1 q.2 (cur.g + 1) (heuristic q e) (some cur) ∈ st'.open_set) ∧
    (∀ v ∈ st'.open_set, v ∈ rest ∨ ∃ q ∈ get_neighbors n obst cur,
      q ∉ st.closed_set ∧
      v = Node.mk q.1 q.2 (cur.g + 1) (heuristic q e) (some cur)) := by
  obtain ⟨cur', rest', hpop', hne, hcl, hop, hcf⟩ := astarStep_next_elim hstep
  rw [hpop] at hpop'
  have hcur : cur' = cur := by
    have := Option.some_inj.mp hpop'
    exact (congrArg Prod.fst this).symm
  have hrest : rest' = rest := by
    have := Option.some_inj.mp hpop'
    exact (congrArg Prod.snd this).symm
  rw [hcur] at hne hcl hop hcf
  rw [hrest] at hop hcf
  have hins : insert (cur.x, cur.y) st.closed_set = st.closed_set :=
    Finset.insert_eq_self.mpr hclosed
  refine ⟨by rw [hcl, hins], ?_, ?_⟩
  · intro q hq hqnc
    rw [hop]
    exact pushNeighbors_fst_mem_of_nbr _ _ _ _ _ _ q hq (by rw [hins]; exact hqnc)
  · intro v hv
    rw [hop] at hv
    rcases pushNeighbors_fst_mem _ _ _ _ _ _ v hv with hvr | ⟨q, hq, hqn, he2⟩
    · exact Or.inl hvr
    · exact Or.inr ⟨q, hq, by rw [hins] at hqn; exact hqn, he2⟩

/-- C3 as stated is false: the engine has no closed-set check at pop time.
In the 3 × 3 obstacle-free search from `(0,0)` to `(2,2)`, the state reached
after 8 iterations pops a node whose coordinate is already closed, yet the
iteration re-expands it and pushes a new node (the frontier after the step
is strictly larger than the popped frontier). -/
theorem skipsClosedAtPop_false : ¬ SkipsClosedAtPop := by
  intro hcl
  set st := iterSt 3 ∅ (2, 2) 8 (initState (0, 0) (2, 2)) with hst
  cases hpop : heappop st.open_set with
  | none =>
    have hsome : (heappop st.open_set).isSome = true := by rw [hst]; rfl
    rw [hpop] at hsome
    cases hsome
  | some pr =>
    obtain ⟨cur, rest⟩ := pr
    have hclosed : (cur.x, cur.y) ∈ st.closed_set := by
      have h1 : ((heappop st.open_set).map
          (fun pr => decide ((pr.1.x, pr.1.y) ∈ st.closed_set))) = some true := by
        rw [hst]; rfl
      rw [hpop] at h1
      have h2 := Option.some_inj.mp h1
      exact of_decide_eq_true h2
    have hlen : rest.length = 4 := by
      have h1 : ((heappop st.open_set).map (fun pr => pr.2.length)) = some 4 := by
        rw [hst]; rfl
      rw [hpop] at h1
      exact Option.some_inj.mp h1
    have hstep : stepOpenLength 3 ∅ (2, 2) st = 5 := by rw [hst]; rfl
    have := hcl 3 ∅ (2, 2) st cur rest hpop hclosed
    omega

theorem closed_pop_reexpands_witness :
    stepClosedSet 3 ∅ (2, 2) (iterSt 3 ∅ (2, 2) 8 (initState (0, 0) (2, 2))) =
      (iterSt 3 ∅ (2, 2) 8 (initState (0, 0) (2, 2))).closed_set := by
  set st := iterSt 3 ∅ (2, 2) 8 (initState (0, 0) (2, 2)) with hst
  cases hpop : heappop st.open_set with
  | none =>
    have hsome : (heappop st.open_set).isSome = true := by rw [hst]; rfl
    rw [hpop] at hsome
    cases hsome
  | some pr =>
    obtain ⟨cur, rest⟩ := pr
    have hclosed : (cur.x, cur.y) ∈ st.closed_set := by
      have h1 : ((heappop st.open_set).map
          (fun pr => decide ((pr.1.x, pr.1.y) ∈ st.closed_set))) = some true := by
        rw [hst]; rfl
      rw [hpop] at h1
      have h2 := Option.some_inj.mp h1
      exact of_decide_eq_true h2
    cases hnext : astarStep 3 ∅ (2, 2) st with
    | exhausted =>
      have hempty : st.open_set = [] := (astarStep_exhausted_iff _ _ _ _).mp hnext
      rw [hempty] at hpop
      simp [heappop] at hpop
    | found p =>
      obtain ⟨cur', rest', hpop', hcoord, _⟩ := astarStep_found_elim hnext
      rw [hpop] at hpop'
      have hcur : cur' = cur := by
        have := Option.some_inj.mp hpop'
        exact (congrArg Prod.fst this).symm
      rw [hcur] at hcoord
      have hnotend : ((heappop st.open_set).map
          (fun pr => decide ((pr.1.x, pr.1.y) = ((2 : Int), (2 : Int))))) =
          some false := by
        rw [hst]; rfl
      rw [hpop] at hnotend
      have h3 : decide ((cur.x, cur.y) = ((2 : Int), (2 : Int))) = false :=
        Option.some_inj.mp hnotend
      rw [hcoord] at h3
      simp at h3
    | next st' =>
      have hmain := closed_pop_reexpands hpop hclosed hnext
      unfold stepClosedSet
      rw [hnext]
      exact hmain.1

/-! ## C2: Manhattan optimality on obstacle-free grids -/

theorem exists_min_heuristic (e : Coord) (Q : Node → Prop) :
    ∀ (l : List Node), (∃ w ∈ l, Q w) →
      ∃ v ∈ l, Q v ∧ ∀ u ∈ l, Q u → heuristic v.coord e ≤ heuristic u.coord e := by
  intro l
  induction l with
  | nil =>
    rintro ⟨w, hw, -⟩
    simp at hw
  | cons a t ih =>
    rintro ⟨w, hw, hqw⟩
    by_cases hex : ∃ w ∈ t, Q w
    · obtain ⟨v, hv, hqv, hmin⟩ := ih hex
      by_cases hqa : Q a
      · by_cases hle : heuristic a.coord e ≤ heuristic v.coord e
        · refine ⟨a, List.mem_cons_self _ _, hqa, ?_⟩
          intro u hu hqu
          rcases List.mem_cons.mp hu with rfl | hu
          · exact le_refl _
          · exact le_trans hle (hmin u hu hqu)
        · refine ⟨v, List.mem_cons_of_mem _ hv, hqv, ?_⟩
          intro u hu hqu
          rcases List.mem_cons.mp hu with rfl | hu
          · exact le_of_not_le hle
          · exact hmin u hu hqu
      · refine ⟨v, List.mem_cons_of_mem _ hv, hqv, ?_⟩
        intro u hu hqu
        rcases List.mem_cons.mp hu with rfl | hu
        · exact absurd hqu hqa
        · exact hmin u hu hqu
    · have hwa : w = a := by
        rcases List.mem_cons.mp hw with rfl | hw
        · rfl
        · exact absurd ⟨w, hw, hqw⟩ hex
      subst hwa
      refine ⟨w, List.mem_cons_self _ _, hqw, ?_⟩
      intro u hu hqu
      rcases List.mem_cons.mp hu with rfl | hu
      · exact le_refl _
      · exact absurd ⟨u, hu, hqu⟩ hex

theorem toward_neighbor {n : Nat} {c e : Coord} (hc : inBoundsI n c) (he : inBoundsI n e)
    (hne : c ≠ e) :
    ∃ q : Coord, adjacent q c ∧ inBoundsI n q ∧ heuristic q e + 1 = heuristic c e := by
  obtain ⟨hc1, hc2, hc3, hc4⟩ := hc
  obtain ⟨he1, he2, he3, he4⟩ := he
  have hne2 : c.1 ≠ e.1 ∨ c.2 ≠ e.2 := by
    by_contra hx
    push_neg at hx
    exact hne (Prod.ext hx.1 hx.2)
  by_cases h1 : c.1 < e.1
  · refine ⟨(c.1 + 1, c.2), ?_, ?_, ?_⟩
    · unfold adjacent; simp only []; omega
    · unfold inBoundsI; simp only []; omega
    · unfold heuristic; simp only []; omega
  · by_cases h2 : e.1 < c.1
    · refine ⟨(c.1 - 1, c.2), ?_, ?_, ?_⟩
      · unfold adjacent; simp only []; omega
      · unfold inBoundsI; simp only []; omega
      · unfold heuristic; simp only []; omega
    · by_cases h3 : c.2 < e.2
      · refine ⟨(c.1, c.2 + 1), ?_, ?_, ?_⟩
        · unfold adjacent; simp only []; omega
        · unfold inBoundsI; simp only []; omega
        · unfold heuristic; simp only []; omega
      · have h4 : e.2 < c.2 := by
          rcases hne2 with h | h <;> omega
        refine ⟨(c.1, c.2 - 1), ?_, ?_, ?_⟩
        · unfold adjacent; simp only []; omega
        · unfold inBoundsI; simp only []; omega
        · unfold heuristic; simp only []; omega

theorem optInv_init (s e : Coord) : OptInv e (heuristic s e) (initState s e) := by
  refine ⟨Node.mk s.1 s.2 0 (heuristic s e) none, ?_, ?_, ?_, ?_, ?_⟩
  · unfold initState
    dsimp only
    exact mem_heappush.mpr (Or.inl rfl)
  · show (0 : Int) + heuristic s e = heuristic s e
    omega
  · show _ ∉ (∅ : Finset Coord)
    exact Finset.not_mem_empty _
  · intro c hc
    exact absurd hc (Finset.not_mem_empty c)
  · intro w hw _ _
    unfold initState at hw
    dsimp only at hw
    rcases mem_heappush.mp hw with rfl | hw
    · exact le_refl _
    · simp at hw

theorem optInv_step {n : Nat} {s e : Coord} {st st' : SearchState}
    (hsb : inBoundsI n s) (heb : inBoundsI n e)
    (hinv : StInv n ∅ s e st) (hopt : OptInv e (heuristic s e) st)
    (hstep : astarStep n ∅ e st = .next st') :
    OptInv e (heuristic s e) st' := by
  obtain ⟨cur, rest, hpop, hne, hcl, hop, hcf⟩ := astarStep_next_elim hstep
  obtain ⟨v, hvmem, hvf, hvncl, hvclosed, hvmin⟩ := hopt
  have hcurmem : cur ∈ st.open_set := (heappop_mem hpop).1
  have hcurok : chainOK n ∅ s e cur := (hinv.mem cur hcurmem).ok
  have hcurfge : heuristic s e ≤ cur.f := chainOK_f_ge hcurok
  have hcurfle : cur.f ≤ heuristic s e := by
    have := heappop_min hinv.ord hpop v hvmem
    omega
  have hcurf : cur.f = heuristic s e := le_antisymm hcurfle hcurfge
  have hrest_sub : ∀ w ∈ rest, w ∈ st'.open_set := by
    intro w hw
    rw [hop]
    exact pushNeighbors_fst_mem_of_heap _ _ _ _ _ _ _ hw
  have hperm := heappop_perm hpop
  have hexists : ∃ w ∈ st'.open_set, (w.f = heuristic s e ∧ w.coord ∉ st'.closed_set) ∧
      ∀ c ∈ st'.closed_set, heuristic w.coord e ≤ heuristic c e := by
    by_cases hdup : ((cur.x, cur.y) : Coord) ∈ st.closed_set
    · -- duplicate pop: the closed set is unchanged and the old witness survives
      have hcl_eq : st'.closed_set = st.closed_set := by
        rw [hcl]
        exact Finset.insert_eq_self.mpr hdup
      have hvne : v ≠ cur := by
        intro hvc
        apply hvncl
        rw [hvc]
        exact hdup
      have hvrest : v ∈ rest := by
        have hvm := hperm.mem_iff.mp hvmem
        rcases List.mem_cons.mp hvm with h | h
        · exact absurd h hvne
        · exact h
      refine ⟨v, hrest_sub v hvrest, ⟨hvf, ?_⟩, ?_⟩
      · rw [hcl_eq]
        exact hvncl
      · intro c hc
        rw [hcl_eq] at hc
        exact hvclosed c hc
    · by_cases hvcur : v.coord = ((cur.x, cur.y) : Coord)
      · -- the witness itself is expanded: step it one cell toward the goal
        have hcoordne : ((cur.x, cur.y) : Coord) ≠ e := hne
        have hcb : inBoundsI n ((cur.x, cur.y) : Coord) := by
          have hmem0 : cur.coord ∈ cur.chain := by
            rw [chain_cons]
            exact List.mem_cons_self _ _
          rcases chainOK_mem cur hcurok _ hmem0 with h | h
          · rw [show (((cur.x, cur.y) : Coord)) = cur.coord from rfl, h]
            exact hsb
          · exact h.1
        obtain ⟨q, hqadj, hqb, hqh⟩ := toward_neighbor hcb heb hcoordne
        have hqlt : heuristic q e < heuristic ((cur.x, cur.y) : Coord) e := by omega
        have hqnotcl : q ∉ st.closed_set := by
          intro hq
          have hle := hvclosed q hq
          rw [hvcur] at hle
          omega
        have hqne : q ≠ ((cur.x, cur.y) : Coord) := by
          intro h
          rw [h] at hqlt
          omega
        have hqnotcl2 : q ∉ insert ((cur.x, cur.y) : Coord) st.closed_set := by
          intro hq
          rcases Finset.mem_insert.mp hq with h | h
          · exact hqne h
          · exact hqnotcl h
        have hqnbr : q ∈ get_neighbors n ∅ cur := by
          refine mem_get_neighbors.mpr ⟨hqadj, hqb, ?_⟩
          exact Finset.not_mem_empty q
        have hwmem : Node.mk q.1 q.2 (cur.g + 1) (heuristic q e) (some cur) ∈
            st'.open_set := by
          rw [hop]
          exact pushNeighbors_fst_mem_of_nbr _ _ _ _ _ _ q hqnbr hqnotcl2
        refine ⟨_, hwmem, ⟨?_, ?_⟩, ?_⟩
        · show cur.g + 1 + heuristic q e = heuristic s e
          have hfc : cur.f = cur.g + heuristic cur.coord e := chainOK_f hcurok
          rw [show cur.coord = (((cur.x, cur.y)) : Coord) from rfl] at hfc
          omega
        · rw [hcl]
          show ((q.1, q.2) : Coord) ∉ _
          rw [show ((q.1, q.2) : Coord) = q from rfl]
          exact hqnotcl2
        · intro c hc
          rw [hcl] at hc
          show heuristic ((q.1, q.2) : Coord) e ≤ _
          rw [show ((q.1, q.2) : Coord) = q from rfl]
          rcases Finset.mem_insert.mp hc with rfl | hc
          · omega
          · have hle := hvclosed c hc
            rw [hvcur] at hle
            omega
      · -- the old witness survives the pop of a different coordinate
        have hvne : v ≠ cur := by
          intro h
          apply hvcur
          rw [h]
          exact rfl
        have hvrest : v ∈ rest := by
          have hvm := hperm.mem_iff.mp hvmem
          rcases List.mem_cons.mp hvm with h | h
          · exact absurd h hvne
          · exact h
        refine ⟨v, hrest_sub v hvrest, ⟨hvf, ?_⟩, ?_⟩
        · rw [hcl]
          intro hq
          rcases Finset.mem_insert.mp hq with h | h
          · exact hvcur h
          · exact hvncl h
        · intro c hc
          rw [hcl] at hc
          rcases Finset.mem_insert.mp hc with rfl | hc
          · exact hvmin cur hcurmem hcurf hdup
          · exact hvclosed c hc
  obtain ⟨w0, hw0mem, ⟨hw0f, hw0ncl⟩, hw0closed⟩ := hexists
  obtain ⟨v2, hv2mem, ⟨hv2f, hv2ncl⟩, hv2min⟩ :=
    exists_min_heuristic e (fun u => u.f = heuristic s e ∧ u.coord ∉ st'.closed_set)
      st'.open_set ⟨w0, hw0mem, hw0f, hw0ncl⟩
  refine ⟨v2, hv2mem, hv2f, hv2ncl, ?_, ?_⟩
  · intro c hc
    exact le_trans (hv2min w0 hw0mem ⟨hw0f, hw0ncl⟩) (hw0closed c hc)
  · intro w hw hwf hwncl
    exact hv2min w hw ⟨hwf, hwncl⟩

theorem astarLoop_opt {n : Nat} {s e : Coord} (hsb : inBoundsI n s)
    (heb : inBoundsI n e) :
    ∀ (fuel : Nat) (st : SearchState) (r : Option (List Coord)) (k : Nat),
      StInv n ∅ s e st → OptInv e (heuristic s e) st →
      astarLoop n ∅ e fuel st = some (r, k) →
      ∃ p, r = some p ∧ (p.length : Int) = heuristic s e + 1 := by
  intro fuel
  induction fuel with
  | zero =>
    intro st r k _ _ h
    rw [astarLoop_zero] at h
    cases h
  | succ fuel ih =>
    intro st r k hinv hopt h
    rw [astarLoop_succ] at h
    cases hstep : astarStep n ∅ e st with
    | exhausted =>
      obtain ⟨v, hvmem, -⟩ := hopt
      have hempty : st.open_set = [] := (astarStep_exhausted_iff _ _ _ _).mp hstep
      rw [hempty] at hvmem
      simp at hvmem
    | found p =>
      rw [hstep] at h
      have hr : r = some p := by
        have h2 := Option.some_inj.mp h
        exact (congrArg Prod.fst h2).symm
      obtain ⟨cur, rest, hpop, hcoord, hp⟩ := astarStep_found_elim hstep
      have hcurmem : cur ∈ st.open_set := (heappop_mem hpop).1
      have hok : chainOK n ∅ s e cur := (hinv.mem cur hcurmem).ok
      have hfge : heuristic s e ≤ cur.f := chainOK_f_ge hok
      obtain ⟨v, hvmem, hvf, -⟩ := hopt
      have hfle : cur.f ≤ heuristic s e := by
        have := heappop_min hinv.ord hpop v hvmem
        omega
      have hfc : cur.f = cur.g + heuristic cur.coord e := chainOK_f hok
      have hce : cur.coord = e := hcoord
      rw [hce, heuristic_self] at hfc
      have hlen : (cur.chain.length : Int) = cur.g + 1 := chainOK_length cur hok
      refine ⟨p, hr, ?_⟩
      rw [hp, List.length_reverse]
      omega
    | next st' =>
      rw [hstep] at h
      rcases Option.map_eq_some'.mp h with ⟨⟨r2, k2⟩, hr2, heq⟩
      have hr : r = r2 := (congrArg Prod.fst heq).symm
      rw [hr]
      exact ih st' r2 k2 (stInv_step hinv hstep)
        (optInv_step hsb heb hinv hopt hstep) hr2

/-- C2: for every grid with an empty obstacle set and every in-bounds start
and end, `find_path(grid, start, end)` returns a path (never NOT_FOUND) of
exactly `heuristic(start, end) + 1` coordinates — the Manhattan-optimal
route length. -/
theorem find_path_empty_optimal (g : Grid) (s e : Coord)
    (hobst : g.obstacles = ∅) (hs : inBoundsI g.size s) (he : inBoundsI g.size e) :
    ∃ p, find_path g s e = some p ∧ (p.length : Int) = heuristic s e + 1 := by
  unfold find_path astar
  rw [hobst]
  cases hrun : searchRun g.size ∅ s e with
  | none => exact absurd hrun (searchRun_ne_none _ _ _ _)
  | some pr =>
    obtain ⟨r, k⟩ := pr
    dsimp only
    unfold searchRun at hrun
    obtain ⟨p, hp, hlen⟩ := astarLoop_opt hs he (astarFuel g.size) (initState s e) r k
      (stInv_init g.size ∅ s e) (optInv_init s e) hrun
    exact ⟨p, by rw [hp], hlen⟩

theorem find_path_empty_optimal_witness :
    (Grid.mk 3 ∅).obstacles = ∅ ∧
      inBoundsI (Grid.mk 3 ∅).size ((0 : Int), (0 : Int)) ∧
      inBoundsI (Grid.mk 3 ∅).size ((2 : Int), (1 : Int)) ∧
      ∃ p, find_path (Grid.mk 3 ∅) (0, 0) (2, 1) = some p ∧
        (p.length : Int) = heuristic (0, 0) (2, 1) + 1 :=
  ⟨rfl, by decide, by decide,
    find_path_empty_optimal (Grid.mk 3 ∅) (0, 0) (2, 1) rfl (by decide) (by decide)⟩


end PyAstar
